import Mathlib

/-!
# Verification of the x265 transform/quantize core (source/common/quant.cpp)

This file gives a shallow embedding of the integer algorithms of
`source/common/quant.cpp` and proves properties of them.

Conventions of the embedding:
* C `int` / `int64_t` / `coeff_t` values are modelled as `Int`; unsigned
  running sums that can wrap are reduced `% 2^32` exactly where the C type
  forces it.
* Arithmetic right shift of a (possibly negative) C int is floor division
  by a power of two, which is Lean's `Int` division `/` (`Int.ediv` for a
  positive divisor).
* Coefficient buffers are total functions `Nat → Int`; a block of
  `numCoeff` coefficients occupies indices `< numCoeff`.
* The scan table `codingParameters.scan` (external to quant.cpp) is a
  parameter `scan : Nat → Nat`; the hypotheses used are exactly the
  properties the spec states for it (a permutation of the block positions).
* `double`-valued RD costs only influence integer outputs through
  comparisons; wherever that happens the embedding takes the comparison
  outcome (the chosen level, the chosen last position, ...) as a
  universally quantified parameter, so theorems hold for every outcome the
  floating point code could produce.
-/

set_option autoImplicit false

namespace Quant

/-- `IEP_RATE = 1 << 15`: cost of one equal-probability (bypass) bin. -/
def IEP_RATE : Int := 32768

/-- `SBH_THRESHOLD`: minimal last-first scan distance for sign-bit hiding. -/
def SBH_THRESHOLD : Int := 4

/-- C `MAX_INT` sentinel (`0x7fffffff`). -/
def MAX_INT : Int := 2147483647

/-- C `MAX_INT64` sentinel (`0x7fffffffffffffff`). -/
def MAX_INT64 : Int := 9223372036854775807

/-- `COEF_REMAIN_BIN_REDUCTION = 3`. -/
def COEF_REMAIN_BIN_REDUCTION : Nat := 3

/-- Arithmetic right shift of a C int: floor division by `2^k`. -/
def sar (x : Int) (k : Nat) : Int := x / (2 ^ k : Int)

/-- Conversion of an `Int` to the value of the C cast `(int16_t)`. -/
def toInt16 (x : Int) : Int := (x + 32768) % 65536 - 32768

/-- Number of nonzero entries among the first `N` cells of a buffer. -/
def countNZ (q : Nat → Int) (N : Nat) : Nat :=
  ∑ b ∈ Finset.range N, if q b = 0 then 0 else 1

theorem countNZ_congr {q q' : Nat → Int} {N : Nat}
    (h : ∀ b < N, q b = q' b) : countNZ q N = countNZ q' N := by
  unfold countNZ
  refine Finset.sum_congr rfl ?_
  intro b hb
  rw [h b (Finset.mem_range.mp hb)]

theorem countNZ_update {q : Nat → Int} {N : Nat} (b : Nat) (v : Int)
    (hb : b < N) :
    countNZ (Function.update q b v) N
      = countNZ q N - (if q b = 0 then 0 else 1) + (if v = 0 then 0 else 1) := by
  classical
  unfold countNZ
  have hmem : b ∈ Finset.range N := Finset.mem_range.mpr hb
  have hsplit := Finset.add_sum_erase (Finset.range N)
    (fun x => if q x = 0 then (0 : Nat) else 1) hmem
  have hsplit' := Finset.add_sum_erase (Finset.range N)
    (fun x => if Function.update q b v x = 0 then (0 : Nat) else 1) hmem
  have herase : ∑ x ∈ (Finset.range N).erase b,
      (if Function.update q b v x = 0 then (0 : Nat) else 1)
      = ∑ x ∈ (Finset.range N).erase b, (if q x = 0 then (0 : Nat) else 1) := by
    refine Finset.sum_congr rfl ?_
    intro x hx
    have hxb : x ≠ b := (Finset.mem_erase.mp hx).1
    rw [Function.update_noteq hxb]
  have hupd : Function.update q b v b = v := Function.update_same b v q
  simp only [hupd] at hsplit'
  simp only [] at hsplit hsplit'
  omega

/-! ## Noise reduction: `denoiseDct` (quant.cpp lines 52-63) -/

/-- One coefficient of `denoiseDct`: C computes `sign = level >> 31`,
`level = (level + sign) ^ sign` (the absolute value), subtracts the offset,
and restores the sign with `(level ^ sign) - sign` unless the result went
negative, in which case the coefficient is zeroed. -/
def denoiseLevel (c : Int) (off : Nat) : Int :=
  let d := (c.natAbs : Int) - off
  if d < 0 then 0 else if c < 0 then -d else d

/-- `denoiseDct dctCoef resSum offset size`: the loop body is independent
per index, so the embedding is pointwise.  `resSum` is a C `uint32_t*`
accumulator, hence the `% 2^32`. -/
def denoiseDct (dctCoef : Nat → Int) (resSum : Nat → Nat) (offset : Nat → Nat)
    (size : Nat) : (Nat → Int) × (Nat → Nat) :=
  (fun i => if i < size then denoiseLevel (dctCoef i) (offset i) else dctCoef i,
   fun i => if i < size then (resSum i + (dctCoef i).natAbs) % 2 ^ 32 else resSum i)

/-! ## Rate functions `getICRate` / `getICRateCost` (lines 65-164) -/

/-- Modelled from the spec: the external constant table `g_goRiceRange`
(§4.9, "prefix length `(symbol>>goRice)+1` clipped by `g_goRiceRange[goRice]`");
these are the x265 values, consistent with the in-source invariant
`g_goRicePrefixLen[absGoRice] + absGoRice = 8` quoted at line 107. -/
def g_goRiceRange : Nat → Nat := fun r => [7, 14, 26, 46, 78].getD r 0

/-- `CLZ32(id, x)` maps to the x86 `BSR` instruction (in-source note at
line 94): the index of the highest set bit of a nonzero `uint32_t`, that
is, the floor of `log2 x`. -/
def bsr32 (x : Nat) : Nat :=
  (List.range 31).foldl (fun acc k => if 2 ^ (k + 1) ≤ x then k + 1 else acc) 0

/-- `getICRate` (lines 65-118).  `CLZ32` maps to the x86 `BSR` instruction
(floor of `log2`), per the in-source note at line 94.  The four table
arguments are `greaterOneBits[0]`, `greaterOneBits[1]`, `levelAbsBits[0]`,
`levelAbsBits[1]`. -/
def getICRate (absLevel : Nat) (diffLevel : Int) (g1b0 g1b1 lab0 lab1 : Int)
    (absGoRice c1c2Idx : Nat) : Int :=
  if absLevel = 0 then 0
  else if diffLevel < 0 then
    (if absLevel = 2 then g1b1 else g1b0) + (if absLevel = 2 then lab0 else 0)
  else
    let symbol : Nat := diffLevel.toNat
    let maxVlc : Nat := g_goRiceRange absGoRice
    let egRate : Int :=
      if maxVlc < symbol then (2 * bsr32 (symbol - maxVlc) + 1 : Nat) * 32768 else 0
    let symbol2 : Nat := if maxVlc < symbol then maxVlc + 1 else symbol
    let prefLen : Nat := symbol2 / 2 ^ absGoRice + 1
    let numBins : Nat := min (prefLen + absGoRice) 8
    egRate + (numBins : Int) * 32768
      + (if c1c2Idx % 2 = 1 then g1b1 else 0) + (if c1c2Idx = 3 then lab1 else 0)

/-- `getICRateCost` (lines 121-164): the binarization actually used for
`coeff_abs_level_remaining`, with escape threshold
`COEF_REMAIN_BIN_REDUCTION = 3` and `CLZ32(idx, symbol + 1)`. -/
def getICRateCost (absLevel : Nat) (diffLevel : Int) (g1b0 g1b1 lab0 lab1 : Int)
    (absGoRice c1c2Idx : Nat) : Int :=
  if diffLevel < 0 then
    IEP_RATE + (if absLevel = 2 then g1b1 else g1b0) + (if absLevel = 2 then lab0 else 0)
  else
    let symbol : Nat := diffLevel.toNat
    let base : Nat :=
      if symbol / 2 ^ absGoRice < COEF_REMAIN_BIN_REDUCTION then
        (symbol / 2 ^ absGoRice + 1 + absGoRice) * 32768
      else
        let s2 : Nat := symbol / 2 ^ absGoRice - COEF_REMAIN_BIN_REDUCTION
        let length : Nat := if s2 = 0 then 0 else bsr32 (s2 + 1)
        (COEF_REMAIN_BIN_REDUCTION + length + absGoRice + 1 + length) * 32768
    IEP_RATE + (base : Int)
      + (if c1c2Idx % 2 = 1 then g1b1 else 0) + (if c1c2Idx = 3 then lab1 else 0)

/-! ## `getRateLast` (lines 1084-1096) -/

/-- Modelled from the spec: `getGroupIdx` (declared in quant.h, outside
src/) — the HEVC group index of a last-significant-coefficient
coordinate, referenced by §4.10 as `groupIdx`. -/
def g_groupIdx : Nat → Nat := fun i =>
  [0, 1, 2, 3, 4, 4, 5, 5, 6, 6, 6, 6, 7, 7, 7, 7,
   8, 8, 8, 8, 8, 8, 8, 8, 9, 9, 9, 9, 9, 9, 9, 9].getD i 0

/-- `getRateLast` (lines 1084-1096).  `maskX = (2 - posx) >> 31` is all-ones
exactly when `2 - posx < 0`, i.e. `posx > 2`, and then masks in
`IEP_RATE * ((ctxX - 2) >> 1)`. -/
def getRateLast (lastXBits lastYBits : Nat → Int) (posx posy : Nat) : Int :=
  lastXBits (g_groupIdx posx) + lastYBits (g_groupIdx posy)
    + (if 2 < posx then IEP_RATE * (((g_groupIdx posx - 2) / 2 : Nat) : Int) else 0)
    + (if 2 < posy then IEP_RATE * (((g_groupIdx posy - 2) / 2 : Nat) : Int) else 0)

/-! ## Transform-quant bypass (lines 365-379 and 429-436) -/

/-- Bypass branch of `transformNxN`: copy the residual block verbatim
through an `(int16_t)` cast and count its nonzero samples. -/
def transformBypass (residual : Nat → Nat → Int) (trSize : Nat) :
    (Nat → Nat → Int) × Nat :=
  (fun k j => toInt16 (residual k j),
   ∑ k ∈ Finset.range trSize, ∑ j ∈ Finset.range trSize,
     if residual k j = 0 then 0 else 1)

/-- Bypass branch of `invtransformNxN`: copy the coefficient block back. -/
def invtransformBypass (coeff : Nat → Nat → Int) : Nat → Nat → Int :=
  fun k j => toInt16 (coeff k j)

/-- 2-D nonzero count of a `trSize × trSize` block. -/
def countNZ2 (f : Nat → Nat → Int) (n : Nat) : Nat :=
  ∑ k ∈ Finset.range n, ∑ j ∈ Finset.range n, if f k j = 0 then 0 else 1

theorem toInt16_of_range {x : Int} (h1 : -32768 ≤ x) (h2 : x ≤ 32767) :
    toInt16 x = x := by
  unfold toInt16
  omega

theorem denoiseLevel_natAbs (c : Int) (off : Nat) :
    (denoiseLevel c off).natAbs = c.natAbs - off := by
  unfold denoiseLevel
  by_cases h : ((c.natAbs : Int) - off) < 0
  · simp only [h, if_true, reduceIte]
    omega
  · by_cases hc : c < 0 <;> simp only [h, hc, reduceIte] <;> omega

theorem denoiseLevel_sign (c : Int) (off : Nat) (hnz : denoiseLevel c off ≠ 0) :
    0 < c ↔ 0 < denoiseLevel c off := by
  unfold denoiseLevel at hnz ⊢
  by_cases h : ((c.natAbs : Int) - off) < 0
  · simp only [h, reduceIte] at hnz
    exact absurd rfl hnz
  · by_cases hc : c < 0 <;> simp only [h, hc, reduceIte] at hnz ⊢ <;> omega

/-! ## Claim theorems: C10, C7, C8, C6 -/

/-- Claim C10 (amended): `denoiseDct` never increases any coefficient
magnitude — the new magnitude is exactly `max(|input|-offset, 0)` — and a
nonzero output keeps the input's sign; the running sum however is a
`uint32_t`, so it increases by `|input[i]|` only modulo `2^32`. -/
theorem c10_denoise (dct : Nat → Int) (resSum offset : Nat → Nat)
    (size i : Nat) (hi : i < size) :
    ((denoiseDct dct resSum offset size).1 i).natAbs = (dct i).natAbs - offset i
    ∧ ((denoiseDct dct resSum offset size).1 i).natAbs ≤ (dct i).natAbs
    ∧ ((denoiseDct dct resSum offset size).1 i ≠ 0 →
        (0 < dct i ↔ 0 < (denoiseDct dct resSum offset size).1 i))
    ∧ (denoiseDct dct resSum offset size).2 i
        = (resSum i + (dct i).natAbs) % 2 ^ 32 := by
  unfold denoiseDct
  simp only [hi, reduceIte]
  refine ⟨denoiseLevel_natAbs _ _, ?_, denoiseLevel_sign _ _, trivial⟩
  rw [denoiseLevel_natAbs]
  omega

/-- Claim C10 counterexample: with the running sum at `2^32 - 1` the
`uint32_t` accumulator wraps, so `residualSum[i]` does not increase by
`|input[i]|` (the claim's third conjunct fails as stated). -/
theorem c10_denoise_counterexample :
    (denoiseDct (fun _ => 5) (fun _ => 2 ^ 32 - 1) (fun _ => 0) 1).2 0 = 4
    ∧ (denoiseDct (fun _ => 5) (fun _ => 2 ^ 32 - 1) (fun _ => 0) 1).2 0
        ≠ (2 ^ 32 - 1) + ((5 : Int)).natAbs := by
  constructor
  · rfl
  · decide

/-- Witness for C10 at a concrete input. -/
theorem c10_denoise_witness :
    (0 : Nat) < 1
    ∧ (((denoiseDct (fun _ => -7) (fun _ => 10) (fun _ => 3) 1).1 0).natAbs
          = ((-7 : Int)).natAbs - 3
        ∧ ((denoiseDct (fun _ => -7) (fun _ => 10) (fun _ => 3) 1).1 0).natAbs
            ≤ ((-7 : Int)).natAbs
        ∧ ((denoiseDct (fun _ => -7) (fun _ => 10) (fun _ => 3) 1).1 0 ≠ 0 →
            (0 < (-7 : Int) ↔ 0 < (denoiseDct (fun _ => -7) (fun _ => 10) (fun _ => 3) 1).1 0))
        ∧ (denoiseDct (fun _ => -7) (fun _ => 10) (fun _ => 3) 1).2 0
            = (10 + ((-7 : Int)).natAbs) % 2 ^ 32) :=
  ⟨Nat.zero_lt_one, c10_denoise (fun _ => -7) (fun _ => 10) (fun _ => 3) 1 0 Nat.zero_lt_one⟩

/-- Claim C7 counterexample: at `absLevel = 5`, `diffLevel = 4`,
`goRiceParam = 0`, `c1c2Idx = 0` and all-zero bit tables, `getICRateCost`
returns 7 bins worth of rate while `getICRate + IEP_RATE` is only 6: the
two binarizations disagree beyond the non-escape Rice range. -/
theorem c7_counterexample :
    getICRateCost 5 4 0 0 0 0 0 0 ≠ getICRate 5 4 0 0 0 0 0 0 + IEP_RATE
    ∧ getICRateCost 5 4 0 0 0 0 0 0 = 229376
    ∧ getICRate 5 4 0 0 0 0 0 0 + IEP_RATE = 196608 := by
  refine ⟨?_, by decide, by decide⟩
  decide

/-- Claim C7 (amended): `getICRateCost = getICRate + IEP_RATE` holds on the
`diffLevel < 0` arm and, for `diffLevel ≥ 0`, whenever
`diffLevel >> goRiceParam < COEF_REMAIN_BIN_REDUCTION` (the non-escape Rice
arm); beyond that the two escape binarizations differ. -/
theorem c7_rate_agree (absLevel : Nat) (diffLevel : Int)
    (g1b0 g1b1 lab0 lab1 : Int) (absGoRice c1c2Idx : Nat)
    (hA : 1 ≤ absLevel) (hR : absGoRice ≤ 4) (hC : c1c2Idx ≤ 3)
    (harm : diffLevel < 0
      ∨ diffLevel.toNat / 2 ^ absGoRice < COEF_REMAIN_BIN_REDUCTION) :
    getICRateCost absLevel diffLevel g1b0 g1b1 lab0 lab1 absGoRice c1c2Idx
      = getICRate absLevel diffLevel g1b0 g1b1 lab0 lab1 absGoRice c1c2Idx
        + IEP_RATE := by
  have hA0 : ¬(absLevel = 0) := by omega
  unfold getICRateCost getICRate
  rw [if_neg hA0]
  by_cases hneg : diffLevel < 0
  · simp only [hneg, reduceIte]
    ring
  · have h3 : diffLevel.toNat / 2 ^ absGoRice < COEF_REMAIN_BIN_REDUCTION :=
      harm.resolve_left hneg
    simp only [hneg, reduceIte]
    have hpow : 0 < 2 ^ absGoRice := Nat.pos_pow_of_pos absGoRice (by omega)
    have hsym : diffLevel.toNat < 3 * 2 ^ absGoRice := by
      have := (Nat.div_lt_iff_lt_mul hpow).mp h3
      unfold COEF_REMAIN_BIN_REDUCTION at this
      omega
    have hmax : ¬(g_goRiceRange absGoRice < diffLevel.toNat) := by
      interval_cases absGoRice <;> simp only [g_goRiceRange, List.getD] <;>
        simp_all <;> omega
    simp only [hmax, reduceIte, h3]
    have hmin : min (diffLevel.toNat / 2 ^ absGoRice + 1 + absGoRice) 8
        = diffLevel.toNat / 2 ^ absGoRice + 1 + absGoRice := by
      apply min_eq_left
      unfold COEF_REMAIN_BIN_REDUCTION at h3
      omega
    rw [hmin]
    unfold IEP_RATE
    push_cast
    ring

/-- Witness for C7 at a concrete input. -/
theorem c7_rate_agree_witness :
    (1 : Nat) ≤ 1
    ∧ getICRateCost 1 (-1) 1 2 3 4 0 0 = getICRate 1 (-1) 1 2 3 4 0 0 + IEP_RATE :=
  ⟨le_refl 1,
   c7_rate_agree 1 (-1) 1 2 3 4 0 0 (le_refl 1) (by decide) (by decide)
     (Or.inl (by decide))⟩

theorem c8_aux (p : Nat) :
    (if 2 < p then IEP_RATE * (((g_groupIdx p - 2) / 2 : Nat) : Int) else 0)
      = (if 2 ≤ p then IEP_RATE * (((g_groupIdx p - 2) / 2 : Nat) : Int) else 0) := by
  rcases Nat.lt_or_ge p 3 with h | h
  · interval_cases p <;> decide
  · rw [if_pos (by omega : 2 < p), if_pos (by omega : 2 ≤ p)]

/-- Claim C8: `getRateLast` is `lastXBits[groupIdx(posx)] + lastYBits[groupIdx(posy)]`
plus `IEP_RATE * ((groupIdx(pos) - 2) / 2)` for every coordinate with
`pos ≥ 2` (for `pos = 2` the suffix term is zero, so the `pos > 2` mask in
the code computes the same value). -/
theorem c8_getRateLast (lastXBits lastYBits : Nat → Int) (posx posy : Nat)
    (hx : posx < 32) (hy : posy < 32) :
    getRateLast lastXBits lastYBits posx posy
      = lastXBits (g_groupIdx posx) + lastYBits (g_groupIdx posy)
        + (if 2 ≤ posx then IEP_RATE * (((g_groupIdx posx - 2) / 2 : Nat) : Int) else 0)
        + (if 2 ≤ posy then IEP_RATE * (((g_groupIdx posy - 2) / 2 : Nat) : Int) else 0) := by
  unfold getRateLast
  rw [c8_aux posx, c8_aux posy]

/-- Witness for C8 at a concrete input. -/
theorem c8_getRateLast_witness :
    (5 : Nat) < 32
    ∧ getRateLast (fun _ => 100) (fun _ => 7) 5 0
        = (fun _ : Nat => (100 : Int)) (g_groupIdx 5) + (fun _ : Nat => (7 : Int)) (g_groupIdx 0)
          + (if 2 ≤ 5 then IEP_RATE * (((g_groupIdx 5 - 2) / 2 : Nat) : Int) else 0)
          + (if 2 ≤ 0 then IEP_RATE * (((g_groupIdx 0 - 2) / 2 : Nat) : Int) else 0) :=
  ⟨by decide,
   c8_getRateLast (fun _ => 100) (fun _ => 7) 5 0 (by decide) (by decide)⟩

/-- Claim C6: with transform-quant bypass, `transformNxN` copies the
residual verbatim into the coefficient block and returns its nonzero
count, `invtransformNxN` copies it back verbatim, and the composition is
the identity on the residual block. -/
theorem c6_bypass_roundtrip (residual : Nat → Nat → Int) (trSize : Nat)
    (h : ∀ k < trSize, ∀ j < trSize,
      -32768 ≤ residual k j ∧ residual k j ≤ 32767) :
    (∀ k < trSize, ∀ j < trSize,
        (transformBypass residual trSize).1 k j = residual k j)
    ∧ (transformBypass residual trSize).2
        = countNZ2 (transformBypass residual trSize).1 trSize
    ∧ (∀ k < trSize, ∀ j < trSize,
        invtransformBypass (transformBypass residual trSize).1 k j = residual k j) := by
  have hcopy : ∀ k < trSize, ∀ j < trSize,
      (transformBypass residual trSize).1 k j = residual k j := by
    intro k hk j hj
    exact toInt16_of_range (h k hk j hj).1 (h k hk j hj).2
  refine ⟨hcopy, ?_, ?_⟩
  · simp only [transformBypass, countNZ2]
    refine Finset.sum_congr rfl ?_
    intro k hk
    refine Finset.sum_congr rfl ?_
    intro j hj
    simp only [toInt16_of_range
      (h k (Finset.mem_range.mp hk) j (Finset.mem_range.mp hj)).1
      (h k (Finset.mem_range.mp hk) j (Finset.mem_range.mp hj)).2]
  · intro k hk j hj
    unfold invtransformBypass
    rw [hcopy k hk j hj]
    exact toInt16_of_range (h k hk j hj).1 (h k hk j hj).2

/-- Witness for C6 at a concrete input. -/
theorem c6_bypass_roundtrip_witness :
    (∀ k < 1, ∀ j < 1,
      -32768 ≤ (fun _ _ => (-5 : Int)) k j ∧ (fun _ _ => (-5 : Int)) k j ≤ 32767)
    ∧ ((∀ k < 1, ∀ j < 1,
          (transformBypass (fun _ _ => (-5 : Int)) 1).1 k j = (fun _ _ => (-5 : Int)) k j)
      ∧ (transformBypass (fun _ _ => (-5 : Int)) 1).2
          = countNZ2 (transformBypass (fun _ _ => (-5 : Int)) 1).1 1
      ∧ (∀ k < 1, ∀ j < 1,
          invtransformBypass (transformBypass (fun _ _ => (-5 : Int)) 1).1 k j
            = (fun _ _ => (-5 : Int)) k j)) :=
  ⟨by decide, c6_bypass_roundtrip (fun _ _ => (-5 : Int)) 1 (by decide)⟩

/-! ## Sign-bit hiding machinery (lines 219-324 and 888-992)

Both sign-bit-hiding passes share one loop shape: scan coefficient groups
from the last one down, find the first/last nonzero position of the group,
and on a parity mismatch pick the cheapest single ±1 perturbation.  The
shape is embedded once, parameterized by the candidate-cost function
(`hdqMk` for `signBitHidingHDQ`, `rdoqMk` for the RDOQ variant). -/

/-- Least `n < k` with `p n` (the C search `for (n = 0;; n++)`). -/
def firstSat (p : Nat → Bool) : Nat → Option Nat
  | 0 => none
  | k + 1 =>
    match firstSat p k with
    | some m => some m
    | none => if p k then some k else none

/-- Greatest `n < k` with `p n` (the C search `for (n = k-1; n >= 0; --n)`). -/
def lastSat (p : Nat → Bool) : Nat → Option Nat
  | 0 => none
  | k + 1 => if p k then some k else lastSat p k

/-- State of the minimum-cost candidate search: `minCostInc`, `minPos`,
`finalChange` and the (possibly stale) `curChange`. -/
structure SelSt where
  minCost : Int
  minPos : Int
  fc : Int
  curChange : Int

/-- Initial search state: `minCostInc = sentinel, minPos = -1,
finalChange = 0, curChange = 0`. -/
def initSel (sentinel : Int) : SelSt := ⟨sentinel, -1, 0, 0⟩

/-- One candidate step.  The candidate function returns the cost and
`some change`, or `none` when the C code assigns only `curCost = MAX`
leaving `curChange` stale. -/
def selStep (cand : Nat → Int × Option Int) (scan : Nat → Nat) (subPos n : Nat)
    (st : SelSt) : SelSt :=
  let c := (cand n).1
  let ch := ((cand n).2).getD st.curChange
  if c < st.minCost then ⟨c, ((scan (n + subPos) : Nat) : Int), ch, ch⟩
  else ⟨st.minCost, st.minPos, st.fc, ch⟩

/-- Candidate loop from position `n` down to `0`. -/
def selGo (cand : Nat → Int × Option Int) (scan : Nat → Nat) (subPos : Nat) :
    Nat → SelSt → SelSt
  | 0, st => selStep cand scan subPos 0 st
  | n + 1, st => selGo cand scan subPos n (selStep cand scan subPos (n + 1) st)

/-- Application of the chosen perturbation (lines 305-316 / 976-987):
saturation clamp to decrement-only, `numSig` bookkeeping, then add or
subtract `finalChange` along the sign of the DCT coefficient.  A
`minPos = -1` would be an out-of-bounds access in C; the embedding reads
index `(-1).toNat = 0`, and the theorems show `minPos ≥ 0` whenever this
is reached. -/
def applySBH (coef q : Nat → Int) (ns : Nat) (minPos fc0 : Int) :
    (Nat → Int) × Nat :=
  let p := minPos.toNat
  let fc : Int := if q p = 32767 ∨ q p = -32768 then -1 else fc0
  let ns' := if q p = 0 then ns + 1
    else if fc = -1 ∧ (q p).natAbs = 1 then ns - 1 else ns
  (Function.update q p (if 0 ≤ coef p then q p + fc else q p - fc), ns')

/-- Signed sum of the group's coefficients from the first to the last
nonzero position (`absSum` accumulates the signed `qCoef` values; only its
parity is used, and parity is unaffected by the `uint32_t` wrap). -/
def cgSum (q : Nat → Int) (scan : Nat → Nat) (subPos F L : Nat) : Int :=
  ∑ n ∈ Finset.Icc F L, q (scan (n + subPos))

/-- State threaded through the per-group loop of either pass. -/
structure SBHSt where
  q : Nat → Int
  ns : Nat
  lastCG : Bool

/-- Candidate costs of `signBitHidingHDQ` (lines 256-295). -/
def hdqMk (dU coef : Nat → Int) (scan : Nat → Nat) :
    (Nat → Int) → Bool → Nat → Nat → Nat → Int → Nat → Int × Option Int :=
  fun q _lastCG subPos F _L signbit n =>
    let b := scan (n + subPos)
    if q b ≠ 0 then
      if 0 < dU b then (-(dU b), some 1)
      else if n = F ∧ (q b).natAbs = 1 then (MAX_INT, none)
      else (dU b, some (-1))
    else
      if n < F then
        if (if 0 ≤ coef b then (0 : Int) else 1) ≠ signbit then (MAX_INT, none)
        else (-(dU b), some 1)
      else (-(dU b), some 1)

/-- Candidate costs of the RDO sign-hiding pass (lines 929-966). -/
def rdoqMk (dU up down sigd resiDct : Nat → Int) (rdFactor : Int)
    (scan : Nat → Nat) :
    (Nat → Int) → Bool → Nat → Nat → Nat → Int → Nat → Int × Option Int :=
  fun q lastCG subPos F L signbit n =>
    let b := scan (n + subPos)
    if q b ≠ 0 then
      let costUp := rdFactor * (-(dU b)) + up b
      let costDown := rdFactor * dU b + down b
        - (if (q b).natAbs = 1 then 32768 + sigd b else 0)
        - (if lastCG ∧ L = n ∧ (q b).natAbs = 1 then 4 * 32768 else 0)
      if costUp < costDown then (costUp, some 1)
      else if n = F ∧ (q b).natAbs = 1 then (MAX_INT64, some (-1))
      else (costDown, some (-1))
    else
      let c := rdFactor * (-((dU b).natAbs : Int)) + 32768 + up b + sigd b
      if n < F ∧ (if 0 ≤ resiDct b then (0 : Int) else 1) ≠ signbit
      then (MAX_INT64, some 1)
      else (c, some 1)

/-- Branch of a coefficient group that contains a nonzero coefficient:
`L` is the last nonzero scan position in the group (`lastNZPosInCG`), and
the first nonzero position, threshold test, parity test and candidate
search follow lines 236-316 / 907-987.  (`scan (F + subPos)` is the C
index `codingParameters.scan[subPos + firstNZPosInCG]`.) -/
def sbhFirst (q : Nat → Int) (scan : Nat → Nat) (subPos : Nat) : Nat :=
  (firstSat (fun n => !(q (scan (n + subPos)) == 0)) 16).getD 0

/-- `signbit = (qCoef[scan[subPos + firstNZPosInCG]] > 0 ? 0 : 1)`. -/
def sbhSign (q : Nat → Int) (scan : Nat → Nat) (subPos F : Nat) : Int :=
  if 0 < q (scan (F + subPos)) then 0 else 1

/-- Package the `applySBH` result back into the loop state (with
`lastCG = 0` for subsequent groups). -/
def sbhApplyState (coef : Nat → Int) (st : SBHSt) (r : SelSt) : SBHSt :=
  ⟨(applySBH coef st.q st.ns r.minPos r.fc).1,
   (applySBH coef st.q st.ns r.minPos r.fc).2, false⟩

/-- The parity-mismatch adjustment: run the candidate search from
`lastCG == 1 ? lastNZPosInCG : SCAN_SET_SIZE - 1` down to `0` and apply
the chosen ±1 change. -/
def sbhAdjust (coef : Nat → Int) (scan : Nat → Nat) (sentinel : Int)
    (mkCand : (Nat → Int) → Bool → Nat → Nat → Nat → Int → Nat → Int × Option Int)
    (s : Nat) (st : SBHSt) (L F : Nat) : SBHSt :=
  sbhApplyState coef st
    (selGo (mkCand st.q st.lastCG (s * 16) F L (sbhSign st.q scan (s * 16) F))
      scan (s * 16) (if st.lastCG then L else 15) (initSel sentinel))

def sbhSubsetSome (coef : Nat → Int) (scan : Nat → Nat) (sentinel : Int)
    (mkCand : (Nat → Int) → Bool → Nat → Nat → Nat → Int → Nat → Int × Option Int)
    (s : Nat) (st : SBHSt) (L : Nat) : SBHSt :=
  if SBH_THRESHOLD ≤ (L : Int) - ((sbhFirst st.q scan (s * 16) : Nat) : Int) then
    if sbhSign st.q scan (s * 16) (sbhFirst st.q scan (s * 16))
        ≠ cgSum st.q scan (s * 16) (sbhFirst st.q scan (s * 16)) L % 2 then
      sbhAdjust coef scan sentinel mkCand s st L (sbhFirst st.q scan (s * 16))
    else ⟨st.q, st.ns, false⟩
  else ⟨st.q, st.ns, false⟩

/-- One coefficient group of either sign-bit-hiding pass.  An all-zero
group is skipped by `continue`, which also skips the `lastCG = 0`
assignment at the bottom of the C loop. -/
def sbhSubsetG (coef : Nat → Int) (scan : Nat → Nat) (sentinel : Int)
    (mkCand : (Nat → Int) → Bool → Nat → Nat → Nat → Int → Nat → Int × Option Int)
    (s : Nat) (st : SBHSt) : SBHSt :=
  (lastSat (fun n => !(st.q (scan (n + s * 16)) == 0)) 16).elim st
    (sbhSubsetSome coef scan sentinel mkCand s st)

/-- Group loop from group index `s` down to `0`. -/
def sbhGo (step : Nat → SBHSt → SBHSt) : Nat → SBHSt → SBHSt
  | 0, st => step 0 st
  | s + 1, st => sbhGo step s (step (s + 1) st)

/-- `Quant::signBitHidingHDQ` (lines 219-324): arguments are the quantized
coefficients, the pre-quantization DCT coefficients, the `deltaU`
fixed-point residuals, the scan table, the number of coefficient groups
and the incoming `numSig`. -/
def signBitHidingHDQ (qC coef dU : Nat → Int) (scan : Nat → Nat)
    (cgNum ns : Nat) : (Nat → Int) × Nat :=
  ((sbhGo (sbhSubsetG coef scan MAX_INT (hdqMk dU coef scan))
      (cgNum - 1) ⟨qC, ns, true⟩).q,
   (sbhGo (sbhSubsetG coef scan MAX_INT (hdqMk dU coef scan))
      (cgNum - 1) ⟨qC, ns, true⟩).ns)

/-- RDO sign-bit-hiding pass of `rdoQuant` (lines 889-992), looping from
`cgLastScanPos` down to group `0`. -/
def rdoqSBH (dst resiDct dU up down sigd : Nat → Int) (rdFactor : Int)
    (scan : Nat → Nat) (cgLastScanPos ns : Nat) : (Nat → Int) × Nat :=
  ((sbhGo (sbhSubsetG resiDct scan MAX_INT64
        (rdoqMk dU up down sigd resiDct rdFactor scan))
      cgLastScanPos ⟨dst, ns, true⟩).q,
   (sbhGo (sbhSubsetG resiDct scan MAX_INT64
        (rdoqMk dU up down sigd resiDct rdFactor scan))
      cgLastScanPos ⟨dst, ns, true⟩).ns)

/-! ## Plain quantization and the `Quant::quant` wrapper (lines 326-351) -/

/-- Modelled from the spec: `primitives.quant` (§4.3, the kernel itself is
outside src/): per position `level = (|dct[i]| * scaling[i] + round) >> qbits`,
saturated to `int16`, with the original sign reapplied, and
`deltaU[i] = ((|dct[i]|*scaling[i]) - (level << qbits)) >> (qbits - 8)`;
returns the count of nonzero output levels. -/
def primQuantLevel (dct : Nat → Int) (scaling : Nat → Nat) (qbits add : Nat)
    (i : Nat) : Nat :=
  min (((dct i).natAbs * scaling i + add) / 2 ^ qbits) 32767

def primQuantCoef (dct : Nat → Int) (scaling : Nat → Nat) (qbits add N : Nat) :
    Nat → Int := fun i =>
  if i < N then
    (if dct i < 0 then -(primQuantLevel dct scaling qbits add i : Int)
     else (primQuantLevel dct scaling qbits add i : Int))
  else 0

def primQuantDelta (dct : Nat → Int) (scaling : Nat → Nat) (qbits add : Nat) :
    Nat → Int := fun i =>
  sar (((dct i).natAbs * scaling i : Int)
    - (primQuantLevel dct scaling qbits add i : Int) * 2 ^ qbits) (qbits - 8)

def primQuant (dct : Nat → Int) (scaling : Nat → Nat) (qbits add N : Nat) :
    (Nat → Int) × (Nat → Int) × Nat :=
  (primQuantCoef dct scaling qbits add N, primQuantDelta dct scaling qbits add,
   countNZ (primQuantCoef dct scaling qbits add N) N)

/-- `add = (sliceType == I ? 171 : 85) << (qbits - 9)` (line 338). -/
def quantAdd (isISlice : Bool) (qbits : Nat) : Nat :=
  (if isISlice then 171 else 85) * 2 ^ (qbits - 9)

/-- `Quant::quant` (lines 326-351): plain quantization with rounding offset
`(171 or 85) << (qbits - 9)` by slice type, followed by the sign-bit-hiding
post-pass when `numSig >= 2` and sign hiding is enabled. -/
def quantHDQ (dct : Nat → Int) (scaling : Nat → Nat) (qbits : Nat)
    (isISlice signHide : Bool) (scan : Nat → Nat) (cgNum : Nat) :
    (Nat → Int) × Nat :=
  if 2 ≤ (primQuant dct scaling qbits (quantAdd isISlice qbits) (16 * cgNum)).2.2
      ∧ signHide then
    signBitHidingHDQ
      (primQuant dct scaling qbits (quantAdd isISlice qbits) (16 * cgNum)).1
      dct
      (primQuant dct scaling qbits (quantAdd isISlice qbits) (16 * cgNum)).2.1
      scan cgNum
      (primQuant dct scaling qbits (quantAdd isISlice qbits) (16 * cgNum)).2.2
  else ((primQuant dct scaling qbits (quantAdd isISlice qbits) (16 * cgNum)).1,
        (primQuant dct scaling qbits (quantAdd isISlice qbits) (16 * cgNum)).2.2)

/-! ## RDOQ: level search bound, finalization, nquant candidate -/

/-- Modelled from the spec: `primitives.nquant` candidate magnitude
(§4.7): `maxAbsLevel[i] = (scaledCoeff[i] + (1 << (qbits-1))) >> qbits`. -/
def nquantLevel (scaled qbits : Nat) : Nat := (scaled + 2 ^ (qbits - 1)) / 2 ^ qbits

/-- `ceil(scaled / 2^qbits)`: the plain-quant candidate bound of claim C3. -/
def ceilq (scaled qbits : Nat) : Nat := (scaled + 2 ^ qbits - 1) / 2 ^ qbits

/-- The `RDO_CODED_LEVEL` loop (lines 616-649): try levels from
`maxAbsLevel` down to `max(maxAbsLevel-1, 1)`, keeping the last candidate
accepted by the floating-point cost comparison; `level` starts at `0` and
stays `0` if no candidate is accepted.  The comparison outcome is
abstracted as `accept`. -/
def rdoCodedLevel (accept : Nat → Bool) (maxAbsLevel : Nat) : Nat :=
  (List.range (maxAbsLevel + 1 - max (maxAbsLevel - 1) 1)).foldl
    (fun lvlAcc j =>
      if accept (maxAbsLevel - j) then maxAbsLevel - j else lvlAcc) 0

/-- Ascending loop over positions `0, 1, ..., k-1`. -/
def finGo (step : Nat → (Nat → Int) × Nat → (Nat → Int) × Nat) :
    Nat → (Nat → Int) × Nat → (Nat → Int) × Nat
  | 0, st => st
  | k + 1, st => step k (finGo step k st)

/-- Finalization of `rdoQuant` (lines 872-886): recount the nonzero
levels below `bestLastIdx` while re-applying the DCT sign
(`(level ^ mask) - mask` with `mask = resiDct >> 31`), then zero the
positions from `bestLastIdx` to `lastScanPos`. -/
def rdoqFinalizeA (dst resiDct : Nat → Int) (scan : Nat → Nat)
    (bestLastIdx : Nat) : (Nat → Int) × Nat :=
  finGo (fun pos st =>
      (Function.update st.1 (scan pos)
        (toInt16 (if 0 ≤ resiDct (scan pos)
          then st.1 (scan pos) else -(st.1 (scan pos)))),
       st.2 + if st.1 (scan pos) = 0 then 0 else 1)) bestLastIdx (dst, 0)

def rdoqFinalize (dst resiDct : Nat → Int) (scan : Nat → Nat)
    (bestLastIdx lastScanPos : Nat) : (Nat → Int) × Nat :=
  finGo (fun j st => (Function.update st.1 (scan (bestLastIdx + j)) 0, st.2))
    (lastScanPos + 1 - bestLastIdx) (rdoqFinalizeA dst resiDct scan bestLastIdx)

/-! ## Properties of the bounded searches -/

theorem firstSat_none {p : Nat → Bool} :
    ∀ {k : Nat}, firstSat p k = none → ∀ j < k, p j = false := by
  intro k
  induction k with
  | zero => intro _ j hj; omega
  | succ k ih =>
    intro h j hj
    unfold firstSat at h
    cases hf : firstSat p k with
    | some m => rw [hf] at h; exact absurd h (by simp)
    | none =>
      rw [hf] at h
      by_cases hp : p k
      · rw [if_pos hp] at h; exact absurd h (by simp)
      · rcases Nat.lt_succ_iff_lt_or_eq.mp hj with hj' | hj'
        · exact ih hf j hj'
        · subst hj'; exact Bool.eq_false_iff.mpr hp

theorem firstSat_spec {p : Nat → Bool} :
    ∀ {k F : Nat}, firstSat p k = some F →
      F < k ∧ p F = true ∧ ∀ j < F, p j = false := by
  intro k
  induction k with
  | zero => intro F h; exact absurd h (by simp [firstSat])
  | succ k ih =>
    intro F h
    unfold firstSat at h
    cases hf : firstSat p k with
    | some m =>
      rw [hf] at h
      have hm := ih hf
      have : m = F := by simpa using h
      subst this
      exact ⟨Nat.lt_succ_of_lt hm.1, hm.2.1, hm.2.2⟩
    | none =>
      rw [hf] at h
      by_cases hp : p k
      · rw [if_pos hp] at h
        have : k = F := by simpa using h
        subst this
        exact ⟨Nat.lt_succ_self k, hp, firstSat_none hf⟩
      · rw [if_neg hp] at h; exact absurd h (by simp)

theorem firstSat_isSome {p : Nat → Bool} :
    ∀ {k j : Nat}, j < k → p j = true → ∃ F, firstSat p k = some F := by
  intro k
  induction k with
  | zero => intro j hj; omega
  | succ k ih =>
    intro j hj hp
    unfold firstSat
    cases hf : firstSat p k with
    | some m => exact ⟨m, rfl⟩
    | none =>
      rcases Nat.lt_succ_iff_lt_or_eq.mp hj with hj' | hj'
      · rcases ih hj' hp with ⟨F, hF⟩
        rw [hF] at hf; exact absurd hf (by simp)
      · subst hj'; rw [if_pos hp]; exact ⟨j, rfl⟩

theorem firstSat_eq_some {p : Nat → Bool} {k j : Nat} (hj : j < k)
    (hp : p j = true) (hmin : ∀ i < j, p i = false) :
    firstSat p k = some j := by
  rcases firstSat_isSome hj hp with ⟨F, hF⟩
  have hs := firstSat_spec hF
  rcases Nat.lt_trichotomy F j with h | h | h
  · have := hmin F h
    rw [hs.2.1] at this
    exact absurd this (by simp)
  · rw [hF, h]
  · have := hs.2.2 j h
    rw [hp] at this
    exact absurd this (by simp)

theorem lastSat_none {p : Nat → Bool} :
    ∀ {k : Nat}, lastSat p k = none → ∀ j < k, p j = false := by
  intro k
  induction k with
  | zero => intro _ j hj; omega
  | succ k ih =>
    intro h j hj
    unfold lastSat at h
    by_cases hp : p k
    · rw [if_pos hp] at h; exact absurd h (by simp)
    · rw [if_neg hp] at h
      rcases Nat.lt_succ_iff_lt_or_eq.mp hj with hj' | hj'
      · exact ih h j hj'
      · subst hj'; exact Bool.eq_false_iff.mpr hp

theorem lastSat_spec {p : Nat → Bool} :
    ∀ {k L : Nat}, lastSat p k = some L →
      L < k ∧ p L = true ∧ ∀ j, L < j → j < k → p j = false := by
  intro k
  induction k with
  | zero => intro L h; exact absurd h (by simp [lastSat])
  | succ k ih =>
    intro L h
    unfold lastSat at h
    by_cases hp : p k
    · rw [if_pos hp] at h
      have hkL : k = L := by simpa using h
      subst hkL
      exact ⟨Nat.lt_succ_self k, hp, fun j h1 h2 => by omega⟩
    · rw [if_neg hp] at h
      have hm := ih h
      refine ⟨Nat.lt_succ_of_lt hm.1, hm.2.1, ?_⟩
      intro j h1 h2
      rcases Nat.lt_succ_iff_lt_or_eq.mp h2 with h2' | h2'
      · exact hm.2.2 j h1 h2'
      · subst h2'; exact Bool.eq_false_iff.mpr hp

theorem lastSat_isSome {p : Nat → Bool} {k j : Nat} (hj : j < k)
    (hp : p j = true) : ∃ L, lastSat p k = some L := by
  cases hf : lastSat p k with
  | some L => exact ⟨L, rfl⟩
  | none =>
    have := lastSat_none hf j hj
    rw [hp] at this
    exact absurd this (by simp)

/-! ## Properties of the candidate search loop -/

theorem selStep_minCost_le (cand : Nat → Int × Option Int) (scan : Nat → Nat)
    (subPos n : Nat) (st : SelSt) :
    (selStep cand scan subPos n st).minCost ≤ st.minCost := by
  unfold selStep
  dsimp only
  by_cases hc : (cand n).1 < st.minCost
  · rw [if_pos hc]; exact le_of_lt hc
  · rw [if_neg hc]

theorem selStep_minCost_le_cand (cand : Nat → Int × Option Int) (scan : Nat → Nat)
    (subPos n : Nat) (st : SelSt) :
    (selStep cand scan subPos n st).minCost ≤ (cand n).1 := by
  unfold selStep
  dsimp only
  by_cases hc : (cand n).1 < st.minCost
  · rw [if_pos hc]
  · rw [if_neg hc]; exact le_of_not_lt hc

theorem selGo_minCost_le_start (cand : Nat → Int × Option Int) (scan : Nat → Nat)
    (subPos : Nat) :
    ∀ (k : Nat) (st : SelSt),
      (selGo cand scan subPos k st).minCost ≤ st.minCost := by
  intro k
  induction k with
  | zero => intro st; exact selStep_minCost_le _ _ _ _ _
  | succ k ih =>
    intro st
    calc (selGo cand scan subPos (k + 1) st).minCost
        = (selGo cand scan subPos k (selStep cand scan subPos (k + 1) st)).minCost := rfl
      _ ≤ (selStep cand scan subPos (k + 1) st).minCost := ih _
      _ ≤ st.minCost := selStep_minCost_le _ _ _ _ _

theorem selGo_minCost_le_cand (cand : Nat → Int × Option Int) (scan : Nat → Nat)
    (subPos : Nat) :
    ∀ (k : Nat) (st : SelSt) (m : Nat), m ≤ k →
      (selGo cand scan subPos k st).minCost ≤ (cand m).1 := by
  intro k
  induction k with
  | zero =>
    intro st m hm
    have : m = 0 := by omega
    subst this
    exact selStep_minCost_le_cand _ _ _ _ _
  | succ k ih =>
    intro st m hm
    rcases Nat.lt_succ_iff_lt_or_eq.mp (Nat.lt_succ_of_le hm) with h | h
    · exact ih _ m (by omega)
    · rw [h]
      calc (selGo cand scan subPos (k + 1) st).minCost
          = (selGo cand scan subPos k (selStep cand scan subPos (k + 1) st)).minCost := rfl
        _ ≤ (selStep cand scan subPos (k + 1) st).minCost := selGo_minCost_le_start _ _ _ _ _
        _ ≤ (cand (k + 1)).1 := selStep_minCost_le_cand _ _ _ _ _

theorem selGo_cases (cand : Nat → Int × Option Int) (scan : Nat → Nat)
    (subPos : Nat) :
    ∀ (k : Nat) (st : SelSt),
      ((selGo cand scan subPos k st).minCost = st.minCost
        ∧ (selGo cand scan subPos k st).minPos = st.minPos
        ∧ (selGo cand scan subPos k st).fc = st.fc)
      ∨ ∃ m, m ≤ k ∧ (selGo cand scan subPos k st).minCost = (cand m).1
          ∧ (cand m).1 < st.minCost
          ∧ (selGo cand scan subPos k st).minPos = ((scan (m + subPos) : Nat) : Int)
          ∧ ∀ ch, (cand m).2 = some ch → (selGo cand scan subPos k st).fc = ch := by
  intro k
  induction k with
  | zero =>
    intro st
    have hstep0 : selGo cand scan subPos 0 st = selStep cand scan subPos 0 st := rfl
    rw [hstep0]
    unfold selStep
    dsimp only
    by_cases hc : (cand 0).1 < st.minCost
    · rw [if_pos hc]
      right
      refine ⟨0, le_refl 0, rfl, hc, rfl, ?_⟩
      intro ch hch
      rw [hch]
      rfl
    · rw [if_neg hc]
      left
      exact ⟨rfl, rfl, rfl⟩
  | succ k ih =>
    intro st
    have hstep : selGo cand scan subPos (k + 1) st
        = selGo cand scan subPos k (selStep cand scan subPos (k + 1) st) := rfl
    rcases ih (selStep cand scan subPos (k + 1) st) with
      ⟨h1, h2, h3⟩ | ⟨m, hm, h1, h2, h3, h4⟩
    · rw [hstep]
      by_cases hc : (cand (k + 1)).1 < st.minCost
      · right
        refine ⟨k + 1, le_refl _, ?_, hc, ?_, ?_⟩
        · rw [h1]; unfold selStep; dsimp only; rw [if_pos hc]
        · rw [h2]; unfold selStep; dsimp only; rw [if_pos hc]
        · intro ch hch
          rw [h3]; unfold selStep; dsimp only; rw [if_pos hc, hch]
          rfl
      · left
        refine ⟨?_, ?_, ?_⟩
        · rw [h1]; unfold selStep; dsimp only; rw [if_neg hc]
        · rw [h2]; unfold selStep; dsimp only; rw [if_neg hc]
        · rw [h3]; unfold selStep; dsimp only; rw [if_neg hc]
    · right
      rw [hstep]
      refine ⟨m, by omega, h1, ?_, h3, h4⟩
      calc (cand m).1 < (selStep cand scan subPos (k + 1) st).minCost := h2
        _ ≤ st.minCost := selStep_minCost_le _ _ _ _ _

/-! ## Candidate shapes -/

/-- A candidate the search can select: either a nonzero coefficient with a
±1 change that does not zero a magnitude-1 first nonzero, or a zero
coefficient bumped by +1 which, below the first nonzero, carries the
group's hidden sign. -/
def GoodCand (coef q : Nat → Int) (scan : Nat → Nat) (subPos F : Nat)
    (signbit : Int) (n : Nat) (ch : Int) : Prop :=
  (q (scan (n + subPos)) ≠ 0 ∧ (ch = 1 ∨ ch = -1)
    ∧ (ch = -1 → ¬(n = F ∧ (q (scan (n + subPos))).natAbs = 1)))
  ∨ (q (scan (n + subPos)) = 0 ∧ ch = 1
    ∧ (n < F → (if 0 ≤ coef (scan (n + subPos)) then (0 : Int) else 1) = signbit))

theorem hdqMk_shape (dU coef : Nat → Int) (scan : Nat → Nat)
    (q : Nat → Int) (lastCG : Bool) (subPos F L : Nat) (signbit : Int) (n : Nat)
    (h : (hdqMk dU coef scan q lastCG subPos F L signbit n).1 < MAX_INT) :
    ∃ ch, (hdqMk dU coef scan q lastCG subPos F L signbit n).2 = some ch
      ∧ GoodCand coef q scan subPos F signbit n ch := by
  unfold hdqMk at h ⊢
  dsimp only at h ⊢
  by_cases h1 : q (scan (n + subPos)) ≠ 0
  · rw [if_pos h1] at h ⊢
    by_cases h2 : 0 < dU (scan (n + subPos))
    · rw [if_pos h2]
      exact ⟨1, rfl, Or.inl ⟨h1, Or.inl rfl, by omega⟩⟩
    · rw [if_neg h2] at h ⊢
      by_cases h3 : n = F ∧ (q (scan (n + subPos))).natAbs = 1
      · rw [if_pos h3] at h
        exact absurd h (by omega)
      · rw [if_neg h3]
        exact ⟨-1, rfl, Or.inl ⟨h1, Or.inr rfl, fun _ => h3⟩⟩
  · rw [if_neg h1] at h ⊢
    push_neg at h1
    by_cases h2 : n < F
    · rw [if_pos h2] at h ⊢
      by_cases h3 : (if 0 ≤ coef (scan (n + subPos)) then (0 : Int) else 1) ≠ signbit
      · rw [if_pos h3] at h
        exact absurd h (by omega)
      · rw [if_neg h3]
        push_neg at h3
        exact ⟨1, rfl, Or.inr ⟨h1, rfl, fun _ => h3⟩⟩
    · rw [if_neg h2]
      exact ⟨1, rfl, Or.inr ⟨h1, rfl, fun hn => absurd hn h2⟩⟩

theorem rdoqMk_shape (dU up down sigd resiDct : Nat → Int) (rdFactor : Int)
    (scan : Nat → Nat) (q : Nat → Int) (lastCG : Bool) (subPos F L : Nat)
    (signbit : Int) (n : Nat)
    (h : (rdoqMk dU up down sigd resiDct rdFactor scan
        q lastCG subPos F L signbit n).1 < MAX_INT64) :
    ∃ ch, (rdoqMk dU up down sigd resiDct rdFactor scan
        q lastCG subPos F L signbit n).2 = some ch
      ∧ GoodCand resiDct q scan subPos F signbit n ch := by
  unfold rdoqMk at h ⊢
  dsimp only at h ⊢
  by_cases h1 : q (scan (n + subPos)) ≠ 0
  · rw [if_pos h1] at h ⊢
    by_cases h2 : rdFactor * (-dU (scan (n + subPos))) + up (scan (n + subPos))
        < rdFactor * dU (scan (n + subPos)) + down (scan (n + subPos))
          - (if (q (scan (n + subPos))).natAbs = 1
             then 32768 + sigd (scan (n + subPos)) else 0)
          - (if lastCG ∧ L = n ∧ (q (scan (n + subPos))).natAbs = 1
             then 4 * 32768 else 0)
    · rw [if_pos h2]
      exact ⟨1, rfl, Or.inl ⟨h1, Or.inl rfl, by omega⟩⟩
    · rw [if_neg h2] at h ⊢
      by_cases h3 : n = F ∧ (q (scan (n + subPos))).natAbs = 1
      · rw [if_pos h3] at h
        exact absurd h (by omega)
      · rw [if_neg h3]
        exact ⟨-1, rfl, Or.inl ⟨h1, Or.inr rfl, fun _ => h3⟩⟩
  · rw [if_neg h1] at h ⊢
    push_neg at h1
    by_cases h2 : n < F
        ∧ (if 0 ≤ resiDct (scan (n + subPos)) then (0 : Int) else 1) ≠ signbit
    · rw [if_pos h2] at h
      exact absurd h (by omega)
    · rw [if_neg h2]
      refine ⟨1, rfl, Or.inr ⟨h1, rfl, ?_⟩⟩
      intro hn
      by_contra hne
      exact h2 ⟨hn, hne⟩

theorem hdqMk_atL (dU coef : Nat → Int) (scan : Nat → Nat)
    (q : Nat → Int) (lastCG : Bool) (subPos F L : Nat) (signbit : Int)
    (hq : q (scan (L + subPos)) ≠ 0) (hLF : L ≠ F) :
    (hdqMk dU coef scan q lastCG subPos F L signbit L).1 < MAX_INT := by
  unfold hdqMk
  dsimp only
  rw [if_pos hq]
  by_cases h2 : 0 < dU (scan (L + subPos))
  · rw [if_pos h2]
    unfold MAX_INT
    omega
  · rw [if_neg h2, if_neg (by intro hc; exact hLF hc.1)]
    unfold MAX_INT
    omega

theorem rdoqMk_atL (dU up down sigd resiDct : Nat → Int) (rdFactor : Int)
    (scan : Nat → Nat) (q : Nat → Int) (lastCG : Bool) (subPos F L : Nat)
    (signbit : Int) (hq : q (scan (L + subPos)) ≠ 0) (hLF : L ≠ F)
    (hup : (up (scan (L + subPos))).natAbs ≤ 2 ^ 31)
    (hdown : (down (scan (L + subPos))).natAbs ≤ 2 ^ 31)
    (hsigd : (sigd (scan (L + subPos))).natAbs ≤ 2 ^ 31) :
    (rdoqMk dU up down sigd resiDct rdFactor scan
      q lastCG subPos F L signbit L).1 < MAX_INT64 := by
  unfold rdoqMk
  dsimp only
  rw [if_pos hq]
  set b := scan (L + subPos) with hb
  set c1 : Int := if (q b).natAbs = 1 then 32768 + sigd b else 0 with hc1
  set c2 : Int := if lastCG ∧ L = L ∧ (q b).natAbs = 1 then 4 * 32768 else 0 with hc2
  set costUp : Int := rdFactor * (-dU b) + up b with hcu
  set costDown : Int := rdFactor * dU b + down b - c1 - c2 with hcd
  have hsum : costUp + costDown = up b + down b - c1 - c2 := by
    rw [hcu, hcd]; ring
  have hb1 : c1 ≤ 32768 + 2 ^ 31 ∧ 0 - (32768 + 2 ^ 31) ≤ c1 := by
    rw [hc1]; split <;> omega
  have hb2 : c2 ≤ 4 * 32768 ∧ 0 ≤ c2 := by
    rw [hc2]; split <;> omega
  by_cases h2 : costUp < costDown
  · rw [if_pos h2]
    unfold MAX_INT64
    omega
  · rw [if_neg h2, if_neg (by intro hc; exact hLF hc.1)]
    unfold MAX_INT64
    omega

/-! ## The applied perturbation -/

/-- The final change after the saturation clamp (lines 305-306 / 976-977). -/
def applyFC (q : Nat → Int) (b : Nat) (ch : Int) : Int :=
  if q b = 32767 ∨ q b = -32768 then -1 else ch

/-- The written coefficient value (lines 313-316 / 984-987). -/
def applyVal (coef q : Nat → Int) (b : Nat) (ch : Int) : Int :=
  if 0 ≤ coef b then q b + applyFC q b ch else q b - applyFC q b ch

theorem applySBH_val (coef q : Nat → Int) (ns : Nat) (b : Nat) (ch : Int) :
    applySBH coef q ns ((b : Nat) : Int) ch
      = (Function.update q b (applyVal coef q b ch),
         if q b = 0 then ns + 1
         else if applyFC q b ch = -1 ∧ (q b).natAbs = 1 then ns - 1 else ns) := by
  unfold applySBH applyVal applyFC
  simp

/-- Arithmetic facts about the written value, under the sign-compatibility
facts that hold at every position of the block. -/
theorem applyVal_facts (coef q : Nat → Int) (b : Nat) (ch : Int)
    (hch : ch = 1 ∨ ch = -1) (hz : q b = 0 → ch = 1)
    (hsgn1 : 0 < q b → 0 ≤ coef b) (hsgn2 : q b < 0 → coef b < 0) :
    (applyVal coef q b ch - q b).natAbs = 1
    ∧ ((q b).natAbs + 1 = (applyVal coef q b ch).natAbs
        ∨ (q b).natAbs = (applyVal coef q b ch).natAbs + 1)
    ∧ (applyVal coef q b ch = 0 ↔ (applyFC q b ch = -1 ∧ (q b).natAbs = 1))
    ∧ (0 < applyVal coef q b ch → 0 ≤ coef b)
    ∧ (applyVal coef q b ch < 0 → coef b < 0)
    ∧ (coef b = 0 → q b = 0 → applyVal coef q b ch = 1)
    ∧ (-32768 ≤ q b → q b ≤ 32767 →
        -32768 ≤ applyVal coef q b ch ∧ applyVal coef q b ch ≤ 32767)
    ∧ (0 < q b → 0 ≤ applyVal coef q b ch)
    ∧ (q b < 0 → applyVal coef q b ch ≤ 0)
    ∧ (q b = 0 → ((0 ≤ coef b → applyVal coef q b ch = 1)
        ∧ (coef b < 0 → applyVal coef q b ch = -1))) := by
  unfold applyVal applyFC
  by_cases hcl : q b = 32767 ∨ q b = -32768
  · rw [if_pos hcl]
    by_cases hcoef : 0 ≤ coef b
    · rw [if_pos hcoef]; omega
    · rw [if_neg hcoef]; omega
  · rw [if_neg hcl]
    by_cases hcoef : 0 ≤ coef b
    · rw [if_pos hcoef]; omega
    · rw [if_neg hcoef]; omega

theorem countNZ_pos {q : Nat → Int} {N b : Nat} (hb : b < N) (hq : q b ≠ 0) :
    1 ≤ countNZ q N := by
  unfold countNZ
  have hmem : b ∈ Finset.range N := Finset.mem_range.mpr hb
  have h1 : (if q b = 0 then (0 : Nat) else 1) = 1 := if_neg hq
  have hle := @Finset.single_le_sum Nat Nat _
    (fun x => if q x = 0 then (0 : Nat) else 1) (Finset.range N)
    (fun i _ => Nat.zero_le _) b hmem
  simp only [] at hle
  omega

/-! ## Parity bookkeeping -/

theorem sum_int_natAbs_mod_two (s : Finset Nat) (f : Nat → Int) :
    (∑ n ∈ s, f n) % 2 = ((∑ n ∈ s, (f n).natAbs : Nat) : Int) % 2 := by
  classical
  induction s using Finset.induction with
  | empty => simp
  | insert h ih =>
    rename_i a t
    rw [Finset.sum_insert h, Finset.sum_insert h, Nat.cast_add]
    omega

/-- Positions outside `[F, L]` of the group are zero, so the parity of the
signed `absSum` over `[F, L]` is the parity of the sum of the magnitudes of
all 16 coefficients of the group. -/
theorem cgSum_parity (q : Nat → Int) (scan : Nat → Nat) (subPos F L : Nat)
    (hL : L < 16)
    (hzb : ∀ n < F, q (scan (n + subPos)) = 0)
    (hza : ∀ n, L < n → n < 16 → q (scan (n + subPos)) = 0) :
    cgSum q scan subPos F L % 2
      = ((∑ n ∈ Finset.range 16, (q (scan (n + subPos))).natAbs : Nat) : Int) % 2 := by
  unfold cgSum
  rw [sum_int_natAbs_mod_two]
  have hsub : Finset.Icc F L ⊆ Finset.range 16 := by
    intro x hx
    have := (Finset.mem_Icc.mp hx).2
    exact Finset.mem_range.mpr (by omega)
  have hzero : ∀ x ∈ Finset.range 16, x ∉ Finset.Icc F L →
      (q (scan (x + subPos))).natAbs = 0 := by
    intro x hx hnx
    have hx16 := Finset.mem_range.mp hx
    rcases Nat.lt_or_ge x F with h | h
    · rw [hzb x h]; rfl
    · have : L < x := by
        by_contra hc
        exact hnx (Finset.mem_Icc.mpr ⟨h, by omega⟩)
      rw [hza x this hx16]; rfl
  rw [Finset.sum_subset hsub hzero]

/-- Splitting the magnitude sum of a group at the single updated position. -/
theorem sum_natAbs_update (q : Nat → Int) (scan : Nat → Nat) (subPos m : Nat)
    (hm : m < 16) (v : Int)
    (hinj : ∀ i < 16, ∀ j < 16, scan (i + subPos) = scan (j + subPos) → i = j) :
    (∑ n ∈ Finset.range 16,
        ((Function.update q (scan (m + subPos)) v) (scan (n + subPos))).natAbs)
      + (q (scan (m + subPos))).natAbs
    = (∑ n ∈ Finset.range 16, (q (scan (n + subPos))).natAbs) + v.natAbs := by
  classical
  have hmem : m ∈ Finset.range 16 := Finset.mem_range.mpr hm
  have h1 := Finset.add_sum_erase (Finset.range 16)
    (fun n => ((Function.update q (scan (m + subPos)) v) (scan (n + subPos))).natAbs) hmem
  have h2 := Finset.add_sum_erase (Finset.range 16)
    (fun n => (q (scan (n + subPos))).natAbs) hmem
  have herase : ∑ n ∈ (Finset.range 16).erase m,
      ((Function.update q (scan (m + subPos)) v) (scan (n + subPos))).natAbs
      = ∑ n ∈ (Finset.range 16).erase m, (q (scan (n + subPos))).natAbs := by
    refine Finset.sum_congr rfl ?_
    intro x hx
    have hxm : x ≠ m := (Finset.mem_erase.mp hx).1
    have hx16 : x < 16 := Finset.mem_range.mp (Finset.mem_erase.mp hx).2
    have hne : scan (x + subPos) ≠ scan (m + subPos) := by
      intro hc
      exact hxm (hinj x hx16 m hm hc)
    rw [Function.update_noteq hne]
  have hupd : (Function.update q (scan (m + subPos)) v) (scan (m + subPos)) = v :=
    Function.update_same _ _ _
  simp only [] at h1 h2
  rw [hupd] at h1
  omega

/-! ## The per-group specification -/

theorem nzp_true {x : Int} : (!(x == 0)) = true ↔ x ≠ 0 := by simp

theorem nzp_false {x : Int} : (!(x == 0)) = false ↔ x = 0 := by simp

/-- All positions of the block hold `int16`-representable values. -/
def RangeOK (q : Nat → Int) (N : Nat) : Prop :=
  ∀ b < N, -32768 ≤ q b ∧ q b ≤ 32767

/-- Weak sign compatibility of the coefficients with the DCT block: a
positive coefficient never sits on a negative DCT value and vice versa. -/
def SignOK (coef q : Nat → Int) (N : Nat) : Prop :=
  ∀ b < N, (0 < q b → 0 ≤ coef b) ∧ (q b < 0 → coef b < 0)

instance (q : Nat → Int) (N : Nat) : Decidable (RangeOK q N) := by
  unfold RangeOK
  infer_instance

instance (coef q : Nat → Int) (N : Nat) : Decidable (SignOK coef q N) := by
  unfold SignOK
  infer_instance

/-- The sign-bit-hiding law for group `s`: if the group (as the pass finds
it, first to last nonzero in scan order) spans at least `SBH_THRESHOLD`,
the sign bit of its first nonzero coefficient equals the parity of the sum
of the magnitudes of its 16 coefficients. -/
def cgParityOK (q : Nat → Int) (scan : Nat → Nat) (s : Nat) : Prop :=
  (lastSat (fun n => !(q (scan (n + s * 16)) == 0)) 16).elim True
    (fun L =>
      SBH_THRESHOLD ≤ (L : Int)
          - (((firstSat (fun n => !(q (scan (n + s * 16)) == 0)) 16).getD 0 : Nat) : Int) →
        (if 0 < q (scan ((firstSat (fun n => !(q (scan (n + s * 16)) == 0)) 16).getD 0 + s * 16))
          then (0 : Int) else 1)
          = ((∑ n ∈ Finset.range 16, (q (scan (n + s * 16))).natAbs : Nat) : Int) % 2)

/-- Group `s` is either untouched or perturbed by ±1 at exactly one
position. -/
def cgPerturbOK (q0 q1 : Nat → Int) (scan : Nat → Nat) (s : Nat) : Prop :=
  (∀ n < 16, q1 (scan (n + s * 16)) = q0 (scan (n + s * 16)))
  ∨ ∃ m < 16, (q1 (scan (m + s * 16)) - q0 (scan (m + s * 16))).natAbs = 1
      ∧ ∀ n < 16, n ≠ m → q1 (scan (n + s * 16)) = q0 (scan (n + s * 16))

/-- The first nonzero coefficient of group `s`, when of magnitude 1, is
never turned into zero. -/
def cgFirstKept (q0 q1 : Nat → Int) (scan : Nat → Nat) (s : Nat) : Prop :=
  ∀ F, firstSat (fun n => !(q0 (scan (n + s * 16)) == 0)) 16 = some F →
    (q0 (scan (F + s * 16))).natAbs = 1 → q1 (scan (F + s * 16)) ≠ 0

/-- The final parity-flip arithmetic of the adjustment step. -/
theorem parity_step (S1 S0 A B : Nat) (C G : Int)
    (hsum : S1 + A = S0 + B) (hd2 : A + 1 = B ∨ A = B + 1)
    (hbridge : C % 2 = (S0 : Int) % 2) (hmis : G ≠ C % 2)
    (hsb01 : G = 0 ∨ G = 1) : G = (S1 : Int) % 2 := by
  omega

set_option maxHeartbeats 1000000 in
/-- Full behaviour of one group step of either sign-bit-hiding pass. -/
theorem sbhSubsetG_step
    (coef : Nat → Int) (scan : Nat → Nat) (sentinel : Int)
    (mkCand : (Nat → Int) → Bool → Nat → Nat → Nat → Int → Nat → Int × Option Int)
    (N : Nat)
    (hscan_lt : ∀ i < N, scan i < N)
    (hscan_inj : ∀ i < N, ∀ j < N, scan i = scan j → i = j)
    (hshape : ∀ q lastCG subPos F L signbit n,
      (mkCand q lastCG subPos F L signbit n).1 < sentinel →
      ∃ ch, (mkCand q lastCG subPos F L signbit n).2 = some ch
        ∧ GoodCand coef q scan subPos F signbit n ch)
    (hatL : ∀ (q : Nat → Int) (lastCG : Bool) (s F L : Nat) (signbit : Int),
      16 * (s + 1) ≤ N → L < 16 → q (scan (L + s * 16)) ≠ 0 → L ≠ F →
      (mkCand q lastCG (s * 16) F L signbit L).1 < sentinel)
    (s : Nat) (hs : 16 * (s + 1) ≤ N) (st : SBHSt)
    (hns : st.ns = countNZ st.q N)
    (hrange : RangeOK st.q N)
    (hsgn : SignOK coef st.q N)
    (hz : ∀ n < 16, coef (scan (n + s * 16)) = 0 → st.q (scan (n + s * 16)) = 0) :
    (sbhSubsetG coef scan sentinel mkCand s st).ns
      = countNZ (sbhSubsetG coef scan sentinel mkCand s st).q N
    ∧ RangeOK (sbhSubsetG coef scan sentinel mkCand s st).q N
    ∧ SignOK coef (sbhSubsetG coef scan sentinel mkCand s st).q N
    ∧ (∀ x, (∀ n < 16, x ≠ scan (n + s * 16)) →
        (sbhSubsetG coef scan sentinel mkCand s st).q x = st.q x)
    ∧ cgParityOK (sbhSubsetG coef scan sentinel mkCand s st).q scan s
    ∧ cgPerturbOK st.q (sbhSubsetG coef scan sentinel mkCand s st).q scan s
    ∧ cgFirstKept st.q (sbhSubsetG coef scan sentinel mkCand s st).q scan s
    ∧ (∀ n < 16, coef (scan (n + s * 16)) = 0 →
        (sbhSubsetG coef scan sentinel mkCand s st).q (scan (n + s * 16)) = 0
        ∨ (sbhSubsetG coef scan sentinel mkCand s st).q (scan (n + s * 16)) = 1) := by
  classical
  rcases hlsc : lastSat (fun n => !(st.q (scan (n + s * 16)) == 0)) 16 with _ | L
  · -- all-zero group: `continue`
    have hr : sbhSubsetG coef scan sentinel mkCand s st = st := by
      unfold sbhSubsetG
      rw [hlsc]
      rfl
    rw [hr]
    refine ⟨hns, hrange, hsgn, fun x _ => rfl, ?_, Or.inl (fun n _ => rfl), ?_, ?_⟩
    · unfold cgParityOK
      rw [hlsc]
      exact trivial
    · intro F hF _
      have := (firstSat_spec hF).2.1
      simp only [nzp_true] at this
      exact this
    · intro n hn hc
      exact Or.inl (hz n hn hc)
  · -- the group has a nonzero coefficient
    have hr1 : sbhSubsetG coef scan sentinel mkCand s st
        = sbhSubsetSome coef scan sentinel mkCand s st L := by
      unfold sbhSubsetG
      rw [hlsc]
      rfl
    have hL16 : L < 16 := (lastSat_spec hlsc).1
    have hqL : st.q (scan (L + s * 16)) ≠ 0 := by
      have := (lastSat_spec hlsc).2.1
      simp only [nzp_true] at this
      exact this
    have hza : ∀ n, L < n → n < 16 → st.q (scan (n + s * 16)) = 0 := by
      intro n h1 h2
      have := (lastSat_spec hlsc).2.2 n h1 h2
      simp only [nzp_false] at this
      exact this
    obtain ⟨F, hF⟩ := @firstSat_isSome
      (fun n => !(st.q (scan (n + s * 16)) == 0)) 16 L hL16
      (by simp only [nzp_true]; exact hqL)
    have hFv : sbhFirst st.q scan (s * 16) = F := by
      unfold sbhFirst
      rw [hF]
      rfl
    have hF16 : F < 16 := (firstSat_spec hF).1
    have hqF : st.q (scan (F + s * 16)) ≠ 0 := by
      have := (firstSat_spec hF).2.1
      simp only [nzp_true] at this
      exact this
    have hzb : ∀ n < F, st.q (scan (n + s * 16)) = 0 := by
      intro n h1
      have := (firstSat_spec hF).2.2 n h1
      simp only [nzp_false] at this
      exact this
    by_cases hdist : SBH_THRESHOLD ≤ (L : Int) - (F : Int)
    case neg =>
      have hr2 : sbhSubsetSome coef scan sentinel mkCand s st L
          = ⟨st.q, st.ns, false⟩ := by
        unfold sbhSubsetSome
        rw [hFv]
        rw [if_neg hdist]
      rw [hr1, hr2]
      refine ⟨hns, hrange, hsgn, fun x _ => rfl, ?_, Or.inl (fun n _ => rfl), ?_, ?_⟩
      · unfold cgParityOK
        rw [hlsc]
        simp only [Option.elim]
        rw [hF]
        simp only [Option.getD_some]
        intro hc
        exact absurd hc hdist
      · intro F0 hF0 _
        rw [hF] at hF0
        injection hF0 with hF0
        rw [← hF0]
        exact hqF
      · intro n hn hc
        exact Or.inl (hz n hn hc)
    case pos =>
      have hFL : F < L := by
        unfold SBH_THRESHOLD at hdist
        omega
      by_cases hmis : sbhSign st.q scan (s * 16) F
          ≠ cgSum st.q scan (s * 16) F L % 2
      case neg =>
        have hr2 : sbhSubsetSome coef scan sentinel mkCand s st L
            = ⟨st.q, st.ns, false⟩ := by
          unfold sbhSubsetSome
          rw [hFv]
          rw [if_pos hdist, if_neg hmis]
        rw [hr1, hr2]
        push_neg at hmis
        refine ⟨hns, hrange, hsgn, fun x _ => rfl, ?_, Or.inl (fun n _ => rfl), ?_, ?_⟩
        · unfold cgParityOK
          rw [hlsc]
          simp only [Option.elim]
          rw [hF]
          simp only [Option.getD_some]
          intro _
          rw [← cgSum_parity st.q scan (s * 16) F L hL16 hzb hza]
          rw [← hmis]
          unfold sbhSign
          rfl
        · intro F0 hF0 _
          rw [hF] at hF0
          injection hF0 with hF0
          rw [← hF0]
          exact hqF
        · intro n hn hc
          exact Or.inl (hz n hn hc)
      case pos =>
        -- the adjustment branch is entered
        have hLF : L ≠ F := by omega
        have hcandL : (mkCand st.q st.lastCG (s * 16) F L
            (sbhSign st.q scan (s * 16) F) L).1 < sentinel :=
          hatL st.q st.lastCG s F L _ hs hL16 hqL hLF
        have hLstart : L ≤ (if st.lastCG then L else 15) := by
          split
          · exact le_refl L
          · omega
        have hminle := selGo_minCost_le_cand
          (mkCand st.q st.lastCG (s * 16) F L (sbhSign st.q scan (s * 16) F))
          scan (s * 16) (if st.lastCG then L else 15) (initSel sentinel) L hLstart
        rcases selGo_cases
            (mkCand st.q st.lastCG (s * 16) F L (sbhSign st.q scan (s * 16) F))
            scan (s * 16) (if st.lastCG then L else 15) (initSel sentinel) with
          ⟨h1, _, _⟩ | ⟨m, hm, hmc, hlt, hpos, hfc⟩
        · exfalso
          rw [h1] at hminle
          have hsent : (initSel sentinel).minCost = sentinel := rfl
          rw [hsent] at hminle
          exact absurd hcandL (not_lt.mpr hminle)
        · have hsent : (initSel sentinel).minCost = sentinel := rfl
          rw [hsent] at hlt
          obtain ⟨ch, hsome, hgood⟩ := hshape st.q st.lastCG (s * 16) F L
            (sbhSign st.q scan (s * 16) F) m hlt
          have hfc' := hfc ch hsome
          have hm16 : m < 16 := by
            have : (if st.lastCG then L else 15) ≤ 15 := by
              split
              · omega
              · exact le_refl 15
            omega
          have hr2 : sbhSubsetSome coef scan sentinel mkCand s st L
              = sbhAdjust coef scan sentinel mkCand s st L F := by
            unfold sbhSubsetSome
            rw [hFv]
            rw [if_pos hdist, if_pos hmis]
          have hr3 : sbhAdjust coef scan sentinel mkCand s st L F
              = ⟨Function.update st.q (scan (m + s * 16))
                    (applyVal coef st.q (scan (m + s * 16)) ch),
                 if st.q (scan (m + s * 16)) = 0 then st.ns + 1
                 else if applyFC st.q (scan (m + s * 16)) ch = -1
                     ∧ (st.q (scan (m + s * 16))).natAbs = 1 then st.ns - 1 else st.ns,
                 false⟩ := by
            unfold sbhAdjust sbhApplyState
            rw [hpos, hfc']
            rw [applySBH_val]
          rw [hr1, hr2, hr3]
          dsimp only
          -- shared facts about the written value
          have hbN : scan (m + s * 16) < N := hscan_lt _ (by omega)
          have hch : ch = 1 ∨ ch = -1 := by
            rcases hgood with ⟨_, h, _⟩ | ⟨_, h, _⟩
            · exact h
            · exact Or.inl h
          have hzch : st.q (scan (m + s * 16)) = 0 → ch = 1 := by
            intro h0
            rcases hgood with ⟨hnz, _, _⟩ | ⟨_, h, _⟩
            · exact absurd h0 hnz
            · exact h
          have hfacts := applyVal_facts coef st.q (scan (m + s * 16)) ch hch hzch
            (hsgn _ hbN).1 (hsgn _ hbN).2
          obtain ⟨hd1, hd2, hd3, hd4, hd5, hd6, hd7, hd8, hd9, hd10⟩ := hfacts
          have hupdm : Function.update st.q (scan (m + s * 16))
              (applyVal coef st.q (scan (m + s * 16)) ch) (scan (m + s * 16))
              = applyVal coef st.q (scan (m + s * 16)) ch :=
            Function.update_same _ _ _
          have hupdo : ∀ n < 16, n ≠ m →
              Function.update st.q (scan (m + s * 16))
                (applyVal coef st.q (scan (m + s * 16)) ch) (scan (n + s * 16))
              = st.q (scan (n + s * 16)) := by
            intro n hn hnm
            apply Function.update_noteq
            intro hc
            have := hscan_inj (n + s * 16) (by omega) (m + s * 16) (by omega) hc
            omega
          -- first nonzero survives
          have hFkeep : Function.update st.q (scan (m + s * 16))
              (applyVal coef st.q (scan (m + s * 16)) ch) (scan (F + s * 16)) ≠ 0 := by
            by_cases hmF : m = F
            · subst hmF
              rw [hupdm]
              intro hv0
              have h31 := hd3.mp hv0
              rcases hgood with ⟨hnz, _, hforb⟩ | ⟨h0, _, _⟩
              · have hab1 : (st.q (scan (m + s * 16))).natAbs = 1 := h31.2
                have hncl : ¬(st.q (scan (m + s * 16)) = 32767
                    ∨ st.q (scan (m + s * 16)) = -32768) := by omega
                have hchm1 : ch = -1 := by
                  have h311 := h31.1
                  unfold applyFC at h311
                  rw [if_neg hncl] at h311
                  exact h311
                exact hforb hchm1 ⟨rfl, hab1⟩
              · exact hqF h0
            · rw [hupdo F hF16 (fun hc => hmF hc.symm)]
              exact hqF
          refine ⟨?_, ?_, ?_, ?_, ?_, ?_, ?_, ?_⟩
          · -- numSig bookkeeping stays exact
            rw [countNZ_update _ _ hbN]
            by_cases h0 : st.q (scan (m + s * 16)) = 0
            · rw [if_pos h0, if_pos h0]
              have hvne : applyVal coef st.q (scan (m + s * 16)) ch ≠ 0 := by
                intro hv0
                have := (hd3.mp hv0).2
                rw [h0] at this
                simp at this
              rw [if_neg hvne]
              omega
            · rw [if_neg h0, if_neg h0]
              have hcnt1 : 1 ≤ countNZ st.q N := countNZ_pos hbN h0
              by_cases hFC : applyFC st.q (scan (m + s * 16)) ch = -1
                  ∧ (st.q (scan (m + s * 16))).natAbs = 1
              · rw [if_pos hFC]
                have hv0 : applyVal coef st.q (scan (m + s * 16)) ch = 0 := hd3.mpr hFC
                rw [if_pos hv0]
                omega
              · rw [if_neg hFC]
                have hvne : applyVal coef st.q (scan (m + s * 16)) ch ≠ 0 := by
                  intro hv0
                  exact hFC (hd3.mp hv0)
                rw [if_neg hvne]
                omega
          · -- range preserved
            intro b' hb'
            by_cases hbb : b' = scan (m + s * 16)
            · subst hbb
              rw [hupdm]
              exact hd7 (hrange _ hbN).1 (hrange _ hbN).2
            · rw [Function.update_noteq hbb]
              exact hrange b' hb'
          · -- weak sign compatibility preserved
            intro b' hb'
            by_cases hbb : b' = scan (m + s * 16)
            · subst hbb
              rw [hupdm]
              exact ⟨hd4, hd5⟩
            · rw [Function.update_noteq hbb]
              exact hsgn b' hb'
          · -- frame
            intro x hx
            exact Function.update_noteq (hx m hm16) _ _
          · -- the parity law
            have hinjlocal : ∀ i < 16, ∀ j < 16,
                scan (i + s * 16) = scan (j + s * 16) → i = j := by
              intro i hi j hj hc
              have := hscan_inj (i + s * 16) (by omega) (j + s * 16) (by omega) hc
              omega
            have hsum := sum_natAbs_update st.q scan (s * 16) m hm16
              (applyVal coef st.q (scan (m + s * 16)) ch) hinjlocal
            have hbridge := cgSum_parity st.q scan (s * 16) F L hL16 hzb hza
            have hsb01 : sbhSign st.q scan (s * 16) F = 0
                ∨ sbhSign st.q scan (s * 16) F = 1 := by
              unfold sbhSign
              split
              · exact Or.inl rfl
              · exact Or.inr rfl
            have hmain : ∃ Fp, firstSat (fun n =>
                  !(Function.update st.q (scan (m + s * 16))
                      (applyVal coef st.q (scan (m + s * 16)) ch)
                      (scan (n + s * 16)) == 0)) 16 = some Fp
                ∧ (if 0 < Function.update st.q (scan (m + s * 16))
                      (applyVal coef st.q (scan (m + s * 16)) ch)
                      (scan (Fp + s * 16)) then (0 : Int) else 1)
                    = sbhSign st.q scan (s * 16) F
                ∧ Function.update st.q (scan (m + s * 16))
                    (applyVal coef st.q (scan (m + s * 16)) ch)
                    (scan (Fp + s * 16)) ≠ 0 ∧ Fp < 16 := by
              by_cases hmF : m < F
              · -- a zero below the old first nonzero was bumped
                have hq0 : st.q (scan (m + s * 16)) = 0 := hzb m hmF
                have hsm : (if 0 ≤ coef (scan (m + s * 16)) then (0 : Int) else 1)
                    = sbhSign st.q scan (s * 16) F := by
                  rcases hgood with ⟨hnz, _, _⟩ | ⟨_, _, hsm⟩
                  · exact absurd hq0 hnz
                  · exact hsm hmF
                have hv1 := hd10 hq0
                have hvne : applyVal coef st.q (scan (m + s * 16)) ch ≠ 0 := by
                  by_cases hcf : 0 ≤ coef (scan (m + s * 16))
                  · rw [hv1.1 hcf]; omega
                  · rw [hv1.2 (by omega)]; omega
                refine ⟨m, ?_, ?_, ?_, hm16⟩
                · apply firstSat_eq_some hm16
                  · simp only [nzp_true]
                    rw [hupdm]
                    exact hvne
                  · intro i hi
                    simp only [nzp_false]
                    rw [hupdo i (by omega) (by omega)]
                    exact hzb i (by omega)
                · rw [hupdm, ← hsm]
                  by_cases hcf : 0 ≤ coef (scan (m + s * 16))
                  · rw [hv1.1 hcf, if_pos hcf, if_pos (by omega : (0 : Int) < 1)]
                  · rw [hv1.2 (by omega), if_neg hcf,
                      if_neg (by omega : ¬(0 : Int) < -1)]
                · rw [hupdm]
                  exact hvne
              · -- the first nonzero position is unchanged
                refine ⟨F, ?_, ?_, hFkeep, hF16⟩
                · apply firstSat_eq_some hF16
                  · simp only [nzp_true]
                    exact hFkeep
                  · intro i hi
                    simp only [nzp_false]
                    rw [hupdo i (by omega) (by omega)]
                    exact hzb i hi
                · by_cases hmF2 : m = F
                  · subst hmF2
                    rw [hupdm]
                    have hvne : applyVal coef st.q (scan (m + s * 16)) ch ≠ 0 := by
                      intro hc
                      rw [hupdm] at hFkeep
                      exact hFkeep hc
                    unfold sbhSign
                    rcases Int.lt_or_lt_of_ne hqF with hneg | hpos2
                    · have hv2 := hd9 hneg
                      rw [if_neg (by omega), if_neg (by omega)]
                    · have hv2 := hd8 hpos2
                      rw [if_pos (by omega), if_pos (by omega)]
                  · rw [hupdo F hF16 (fun hc => hmF2 hc.symm)]
                    unfold sbhSign
                    rfl
            obtain ⟨Fp, hfs2, hsbeq, hFpnz, hFp16⟩ := hmain
            obtain ⟨L2, hls2⟩ := @lastSat_isSome
              (fun n => !(Function.update st.q (scan (m + s * 16))
                  (applyVal coef st.q (scan (m + s * 16)) ch)
                  (scan (n + s * 16)) == 0)) 16 Fp hFp16
              (by simp only [nzp_true]; exact hFpnz)
            unfold cgParityOK
            rw [hls2]
            simp only [Option.elim]
            rw [hfs2]
            simp only [Option.getD_some]
            intro _
            rw [hsbeq]
            exact parity_step _ _ _ _ _ _ hsum hd2 hbridge hmis hsb01
          · -- perturbation description
            right
            refine ⟨m, hm16, ?_, fun n hn hnm => hupdo n hn hnm⟩
            rw [hupdm]
            exact hd1
          · -- first nonzero of magnitude 1 never zeroed
            intro F0 hF0 _
            rw [hF] at hF0
            injection hF0 with hF0
            rw [← hF0]
            exact hFkeep
          · -- zero-DCT positions end at 0 or +1
            intro n hn hc
            by_cases hnm : n = m
            · subst hnm
              rw [hupdm]
              exact Or.inr (hd6 hc (hz n hn hc))
            · rw [hupdo n hn hnm]
              exact Or.inl (hz n hn hc)

/-! ## Congruence of the per-group properties -/

theorem firstSat_congr {p p' : Nat → Bool} :
    ∀ {k : Nat}, (∀ j < k, p j = p' j) → firstSat p k = firstSat p' k := by
  intro k
  induction k with
  | zero => intro _; rfl
  | succ k ih =>
    intro h
    unfold firstSat
    rw [ih (fun j hj => h j (by omega)), h k (by omega)]

theorem lastSat_congr {p p' : Nat → Bool} :
    ∀ {k : Nat}, (∀ j < k, p j = p' j) → lastSat p k = lastSat p' k := by
  intro k
  induction k with
  | zero => intro _; rfl
  | succ k ih =>
    intro h
    unfold lastSat
    rw [ih (fun j hj => h j (by omega)), h k (by omega)]

theorem cgParityOK_congr {qA qB : Nat → Int} {scan : Nat → Nat} {s : Nat}
    (h : ∀ n < 16, qA (scan (n + s * 16)) = qB (scan (n + s * 16))) :
    cgParityOK qA scan s → cgParityOK qB scan s := by
  intro hpar
  have hp : ∀ j < 16, (fun n => !(qA (scan (n + s * 16)) == 0)) j
      = (fun n => !(qB (scan (n + s * 16)) == 0)) j := by
    intro j hj
    simp only []
    rw [h j hj]
  have hls := lastSat_congr hp
  have hfs := firstSat_congr hp
  have hsum : (∑ n ∈ Finset.range 16, (qA (scan (n + s * 16))).natAbs)
      = ∑ n ∈ Finset.range 16, (qB (scan (n + s * 16))).natAbs := by
    refine Finset.sum_congr rfl ?_
    intro n hn
    rw [h n (Finset.mem_range.mp hn)]
  unfold cgParityOK at hpar ⊢
  rw [← hls, ← hfs, ← hsum]
  rcases hA : lastSat (fun n => !(qA (scan (n + s * 16)) == 0)) 16 with _ | L
  · exact trivial
  · rw [hA] at hpar
    simp only [Option.elim] at hpar ⊢
    have hF16 : (firstSat (fun n => !(qA (scan (n + s * 16)) == 0)) 16).getD 0 < 16 := by
      rcases hfsA : firstSat (fun n => !(qA (scan (n + s * 16)) == 0)) 16 with _ | F
      · simp [Option.getD]
      · have := (firstSat_spec hfsA).1
        simpa using this
    rw [← h _ hF16]
    exact hpar

theorem cgPerturbOK_congr {q0 q0' q1 q1' : Nat → Int} {scan : Nat → Nat} {s : Nat}
    (h0 : ∀ n < 16, q0 (scan (n + s * 16)) = q0' (scan (n + s * 16)))
    (h1 : ∀ n < 16, q1 (scan (n + s * 16)) = q1' (scan (n + s * 16))) :
    cgPerturbOK q0 q1 scan s → cgPerturbOK q0' q1' scan s := by
  intro hp
  rcases hp with hsame | ⟨m, hm, hdel, hoth⟩
  · left
    intro n hn
    rw [← h1 n hn, ← h0 n hn]
    exact hsame n hn
  · right
    refine ⟨m, hm, ?_, ?_⟩
    · rw [← h1 m hm, ← h0 m hm]
      exact hdel
    · intro n hn hnm
      rw [← h1 n hn, ← h0 n hn]
      exact hoth n hn hnm

theorem cgFirstKept_congr {q0 q0' q1 q1' : Nat → Int} {scan : Nat → Nat} {s : Nat}
    (h0 : ∀ n < 16, q0 (scan (n + s * 16)) = q0' (scan (n + s * 16)))
    (h1 : ∀ n < 16, q1 (scan (n + s * 16)) = q1' (scan (n + s * 16))) :
    cgFirstKept q0 q1 scan s → cgFirstKept q0' q1' scan s := by
  intro hk F hF hmag
  have hp : ∀ j < 16, (fun n => !(q0' (scan (n + s * 16)) == 0)) j
      = (fun n => !(q0 (scan (n + s * 16)) == 0)) j := by
    intro j hj
    simp only []
    rw [h0 j hj]
  rw [firstSat_congr hp] at hF
  have hF16 : F < 16 := (firstSat_spec hF).1
  rw [← h0 F hF16] at hmag
  rw [← h1 F hF16]
  exact hk F hF hmag

/-! ## The group loop -/

set_option maxHeartbeats 1000000 in
/-- Invariants and per-group conclusions of the whole group loop, processing
groups `s, s-1, ..., 0` of either sign-bit-hiding pass. -/
theorem sbhGo_master
    (coef : Nat → Int) (scan : Nat → Nat) (sentinel : Int)
    (mkCand : (Nat → Int) → Bool → Nat → Nat → Nat → Int → Nat → Int × Option Int)
    (N : Nat) (q0 : Nat → Int)
    (hscan_lt : ∀ i < N, scan i < N)
    (hscan_inj : ∀ i < N, ∀ j < N, scan i = scan j → i = j)
    (hshape : ∀ q lastCG subPos F L signbit n,
      (mkCand q lastCG subPos F L signbit n).1 < sentinel →
      ∃ ch, (mkCand q lastCG subPos F L signbit n).2 = some ch
        ∧ GoodCand coef q scan subPos F signbit n ch)
    (hatL : ∀ (q : Nat → Int) (lastCG : Bool) (s F L : Nat) (signbit : Int),
      16 * (s + 1) ≤ N → L < 16 → q (scan (L + s * 16)) ≠ 0 → L ≠ F →
      (mkCand q lastCG (s * 16) F L signbit L).1 < sentinel)
    (hq0z : ∀ b < N, coef b = 0 → q0 b = 0) :
    ∀ s, 16 * (s + 1) ≤ N → ∀ st : SBHSt,
      st.ns = countNZ st.q N →
      RangeOK st.q N →
      SignOK coef st.q N →
      (∀ n < 16 * (s + 1), st.q (scan n) = q0 (scan n)) →
      (sbhGo (sbhSubsetG coef scan sentinel mkCand) s st).ns
          = countNZ (sbhGo (sbhSubsetG coef scan sentinel mkCand) s st).q N
      ∧ RangeOK (sbhGo (sbhSubsetG coef scan sentinel mkCand) s st).q N
      ∧ SignOK coef (sbhGo (sbhSubsetG coef scan sentinel mkCand) s st).q N
      ∧ (∀ x, (∀ i < 16 * (s + 1), x ≠ scan i) →
          (sbhGo (sbhSubsetG coef scan sentinel mkCand) s st).q x = st.q x)
      ∧ (∀ t ≤ s, cgParityOK (sbhGo (sbhSubsetG coef scan sentinel mkCand) s st).q scan t)
      ∧ (∀ t ≤ s, cgPerturbOK st.q (sbhGo (sbhSubsetG coef scan sentinel mkCand) s st).q scan t)
      ∧ (∀ t ≤ s, cgFirstKept st.q (sbhGo (sbhSubsetG coef scan sentinel mkCand) s st).q scan t)
      ∧ (∀ n < 16 * (s + 1), coef (scan n) = 0 →
          (sbhGo (sbhSubsetG coef scan sentinel mkCand) s st).q (scan n) = 0
          ∨ (sbhGo (sbhSubsetG coef scan sentinel mkCand) s st).q (scan n) = 1) := by
  intro s
  induction s with
  | zero =>
    intro hs st hns hrange hsgn huntouched
    have hz : ∀ n < 16, coef (scan (n + 0 * 16)) = 0 → st.q (scan (n + 0 * 16)) = 0 := by
      intro n hn hc
      rw [huntouched (n + 0 * 16) (by omega)]
      exact hq0z _ (hscan_lt _ (by omega)) hc
    have hstep := sbhSubsetG_step coef scan sentinel mkCand N hscan_lt hscan_inj
      hshape hatL 0 hs st hns hrange hsgn hz
    obtain ⟨a1, a2, a3, a4, a5, a6, a7, a8⟩ := hstep
    refine ⟨a1, a2, a3, ?_, ?_, ?_, ?_, ?_⟩
    · intro x hx
      exact a4 x (fun n hn => hx (n + 0 * 16) (by omega))
    · intro t ht
      have : t = 0 := by omega
      rw [this]
      exact a5
    · intro t ht
      have : t = 0 := by omega
      rw [this]
      exact a6
    · intro t ht
      have : t = 0 := by omega
      rw [this]
      exact a7
    · intro n hn hc
      have hn' : n + 0 * 16 = n := by omega
      have := a8 n (by omega)
      rw [hn'] at this
      exact this hc
  | succ s ih =>
    intro hs st hns hrange hsgn huntouched
    have hz : ∀ n < 16, coef (scan (n + (s + 1) * 16)) = 0 →
        st.q (scan (n + (s + 1) * 16)) = 0 := by
      intro n hn hc
      rw [huntouched (n + (s + 1) * 16) (by omega)]
      exact hq0z _ (hscan_lt _ (by omega)) hc
    have hstep := sbhSubsetG_step coef scan sentinel mkCand N hscan_lt hscan_inj
      hshape hatL (s + 1) hs st hns hrange hsgn hz
    obtain ⟨a1, a2, a3, a4, a5, a6, a7, a8⟩ := hstep
    have hgo : sbhGo (sbhSubsetG coef scan sentinel mkCand) (s + 1) st
        = sbhGo (sbhSubsetG coef scan sentinel mkCand) s
            (sbhSubsetG coef scan sentinel mkCand (s + 1) st) := rfl
    have huntouched1 : ∀ n < 16 * (s + 1),
        (sbhSubsetG coef scan sentinel mkCand (s + 1) st).q (scan n) = q0 (scan n) := by
      intro n hn
      rw [a4 (scan n) ?_]
      · exact huntouched n (by omega)
      · intro k hk hc
        have := hscan_inj n (by omega) (k + (s + 1) * 16) (by omega) hc
        omega
    have hih := ih (by omega) (sbhSubsetG coef scan sentinel mkCand (s + 1) st)
      a1 a2 a3 huntouched1
    obtain ⟨b1, b2, b3, b4, b5, b6, b7, b8⟩ := hih
    rw [hgo]
    have hframeTop : ∀ n < 16,
        (sbhGo (sbhSubsetG coef scan sentinel mkCand) s
            (sbhSubsetG coef scan sentinel mkCand (s + 1) st)).q (scan (n + (s + 1) * 16))
        = (sbhSubsetG coef scan sentinel mkCand (s + 1) st).q (scan (n + (s + 1) * 16)) := by
      intro n hn
      apply b4
      intro i hi hc
      have := hscan_inj (n + (s + 1) * 16) (by omega) i (by omega) hc
      omega
    have hlowEq : ∀ n < 16 * (s + 1),
        st.q (scan n) = (sbhSubsetG coef scan sentinel mkCand (s + 1) st).q (scan n) := by
      intro n hn
      rw [huntouched1 n hn, huntouched n (by omega)]
    refine ⟨b1, b2, b3, ?_, ?_, ?_, ?_, ?_⟩
    · -- frame over the whole processed region
      intro x hx
      rw [b4 x (fun i hi => hx i (by omega))]
      exact a4 x (fun n hn => hx (n + (s + 1) * 16) (by omega))
    · intro t ht
      rcases Nat.lt_succ_iff_lt_or_eq.mp (Nat.lt_succ_of_le ht) with ht' | ht'
      · exact b5 t (by omega)
      · rw [ht']
        exact cgParityOK_congr (fun n hn => (hframeTop n hn).symm) a5
    · intro t ht
      rcases Nat.lt_succ_iff_lt_or_eq.mp (Nat.lt_succ_of_le ht) with ht' | ht'
      · refine cgPerturbOK_congr ?_ (fun n hn => rfl) (b6 t (by omega))
        intro n hn
        exact (hlowEq (n + t * 16) (by omega)).symm
      · rw [ht']
        exact cgPerturbOK_congr (fun n hn => rfl)
          (fun n hn => (hframeTop n hn).symm) a6
    · intro t ht
      rcases Nat.lt_succ_iff_lt_or_eq.mp (Nat.lt_succ_of_le ht) with ht' | ht'
      · refine cgFirstKept_congr ?_ (fun n hn => rfl) (b7 t (by omega))
        intro n hn
        exact (hlowEq (n + t * 16) (by omega)).symm
      · rw [ht']
        exact cgFirstKept_congr (fun n hn => rfl)
          (fun n hn => (hframeTop n hn).symm) a7
    · intro n hn hc
      by_cases hlow : n < 16 * (s + 1)
      · exact b8 n hlow hc
      · have hk : n - (s + 1) * 16 < 16 := by omega
        have hdec : n - (s + 1) * 16 + (s + 1) * 16 = n := by omega
        have hcc : coef (scan (n - (s + 1) * 16 + (s + 1) * 16)) = 0 := by
          rw [hdec]
          exact hc
        have h8 := a8 (n - (s + 1) * 16) hk hcc
        have hft := hframeTop (n - (s + 1) * 16) hk
        rw [hdec] at h8 hft
        rw [hft]
        exact h8

/-! ## Facts about the modelled plain quantizer -/

theorem scan_surj (scan : Nat → Nat) (N : Nat)
    (hlt : ∀ i < N, scan i < N)
    (hinj : ∀ i < N, ∀ j < N, scan i = scan j → i = j) :
    ∀ b < N, ∃ i, i < N ∧ scan i = b := by
  classical
  have hcard : (Finset.image scan (Finset.range N)).card = N := by
    rw [Finset.card_image_of_injOn]
    · exact Finset.card_range N
    · intro i hi j hj hc
      exact hinj i (Finset.mem_range.mp hi) j (Finset.mem_range.mp hj) hc
  have hsub : Finset.image scan (Finset.range N) ⊆ Finset.range N := by
    intro x hx
    obtain ⟨i, hi, rfl⟩ := Finset.mem_image.mp hx
    exact Finset.mem_range.mpr (hlt i (Finset.mem_range.mp hi))
  have himg : Finset.image scan (Finset.range N) = Finset.range N := by
    apply Finset.eq_of_subset_of_card_le hsub
    rw [hcard, Finset.card_range]
  intro b hb
  have : b ∈ Finset.image scan (Finset.range N) := by
    rw [himg]
    exact Finset.mem_range.mpr hb
  obtain ⟨i, hi, heq⟩ := Finset.mem_image.mp this
  exact ⟨i, Finset.mem_range.mp hi, heq⟩

theorem countNZ_scan (q : Nat → Int) (scan : Nat → Nat) (N : Nat)
    (hlt : ∀ i < N, scan i < N)
    (hinj : ∀ i < N, ∀ j < N, scan i = scan j → i = j) :
    countNZ q N = ∑ p ∈ Finset.range N, (if q (scan p) = 0 then (0 : Nat) else 1) := by
  classical
  have hcard : (Finset.image scan (Finset.range N)).card = N := by
    rw [Finset.card_image_of_injOn]
    · exact Finset.card_range N
    · intro i hi j hj hc
      exact hinj i (Finset.mem_range.mp hi) j (Finset.mem_range.mp hj) hc
  have hsub : Finset.image scan (Finset.range N) ⊆ Finset.range N := by
    intro x hx
    obtain ⟨i, hi, rfl⟩ := Finset.mem_image.mp hx
    exact Finset.mem_range.mpr (hlt i (Finset.mem_range.mp hi))
  have himg : Finset.image scan (Finset.range N) = Finset.range N := by
    apply Finset.eq_of_subset_of_card_le hsub
    rw [hcard, Finset.card_range]
  unfold countNZ
  nth_rewrite 1 [← himg]
  rw [Finset.sum_image]
  intro i hi j hj hc
  exact hinj i (Finset.mem_range.mp hi) j (Finset.mem_range.mp hj) hc

theorem primQuant_count (dct : Nat → Int) (scaling : Nat → Nat) (qbits add N : Nat) :
    (primQuant dct scaling qbits add N).2.2
      = countNZ (primQuant dct scaling qbits add N).1 N := rfl

theorem primQuant_range (dct : Nat → Int) (scaling : Nat → Nat) (qbits add N : Nat) :
    RangeOK (primQuant dct scaling qbits add N).1 N := by
  intro b hb
  unfold primQuant primQuantCoef
  dsimp only
  rw [if_pos hb]
  have h1 : primQuantLevel dct scaling qbits add b ≤ 32767 :=
    min_le_right _ _
  split <;> omega

theorem primQuant_sign (dct : Nat → Int) (scaling : Nat → Nat) (qbits add N : Nat) :
    SignOK dct (primQuant dct scaling qbits add N).1 N := by
  intro b hb
  unfold primQuant primQuantCoef
  dsimp only
  rw [if_pos hb]
  by_cases hneg : dct b < 0
  · rw [if_pos hneg]
    constructor <;> omega
  · rw [if_neg hneg]
    constructor <;> omega

theorem primQuant_zero (dct : Nat → Int) (scaling : Nat → Nat) (qbits add N : Nat)
    (hadd : add < 2 ^ qbits) :
    ∀ b, dct b = 0 → (primQuant dct scaling qbits add N).1 b = 0 := by
  intro b h0
  unfold primQuant primQuantCoef primQuantLevel
  dsimp only
  have hlvl : ((dct b).natAbs * scaling b + add) / 2 ^ qbits = 0 := by
    rw [h0]
    simp only [Int.natAbs_zero, Nat.zero_mul, Nat.zero_add]
    exact Nat.div_eq_of_lt hadd
  rw [hlvl]
  split
  · split <;> simp
  · rfl

/-! ## The two sign-bit-hiding passes -/

/-- `Quant::signBitHidingHDQ` keeps `numSig` equal to the nonzero count,
keeps coefficients in `int16` range, keeps signs compatible with the DCT
block, enforces the parity law in every group, perturbs at most one
position per group by ±1, never zeroes a magnitude-1 first nonzero, and
only ever writes `+1` over a zero-DCT position. -/
theorem signBitHidingHDQ_spec (qC coef dU : Nat → Int) (scan : Nat → Nat)
    (cgNum ns : Nat)
    (hcg : 1 ≤ cgNum)
    (hscan_lt : ∀ i < 16 * cgNum, scan i < 16 * cgNum)
    (hscan_inj : ∀ i < 16 * cgNum, ∀ j < 16 * cgNum, scan i = scan j → i = j)
    (hns : ns = countNZ qC (16 * cgNum))
    (hrange : RangeOK qC (16 * cgNum))
    (hsgn : SignOK coef qC (16 * cgNum))
    (hqz : ∀ b < 16 * cgNum, coef b = 0 → qC b = 0) :
    (signBitHidingHDQ qC coef dU scan cgNum ns).2
        = countNZ (signBitHidingHDQ qC coef dU scan cgNum ns).1 (16 * cgNum)
    ∧ RangeOK (signBitHidingHDQ qC coef dU scan cgNum ns).1 (16 * cgNum)
    ∧ SignOK coef (signBitHidingHDQ qC coef dU scan cgNum ns).1 (16 * cgNum)
    ∧ (∀ t < cgNum, cgParityOK (signBitHidingHDQ qC coef dU scan cgNum ns).1 scan t)
    ∧ (∀ t < cgNum, cgPerturbOK qC (signBitHidingHDQ qC coef dU scan cgNum ns).1 scan t)
    ∧ (∀ t < cgNum, cgFirstKept qC (signBitHidingHDQ qC coef dU scan cgNum ns).1 scan t)
    ∧ (∀ n < 16 * cgNum, coef (scan n) = 0 →
        (signBitHidingHDQ qC coef dU scan cgNum ns).1 (scan n) = 0
        ∨ (signBitHidingHDQ qC coef dU scan cgNum ns).1 (scan n) = 1) := by
  have hm := sbhGo_master coef scan MAX_INT (hdqMk dU coef scan) (16 * cgNum) qC
    hscan_lt hscan_inj
    (fun q lastCG subPos F L signbit n h =>
      hdqMk_shape dU coef scan q lastCG subPos F L signbit n h)
    (fun q lastCG s F L signbit _ _ hq hLF =>
      hdqMk_atL dU coef scan q lastCG (s * 16) F L signbit hq hLF)
    hqz (cgNum - 1) (by omega) ⟨qC, ns, true⟩ hns hrange hsgn (fun n _ => rfl)
  obtain ⟨b1, b2, b3, _, b5, b6, b7, b8⟩ := hm
  unfold signBitHidingHDQ
  dsimp only
  refine ⟨b1, b2, b3, ?_, ?_, ?_, ?_⟩
  · intro t ht
    exact b5 t (by omega)
  · intro t ht
    exact b6 t (by omega)
  · intro t ht
    exact b7 t (by omega)
  · intro n hn hc
    exact b8 n (by omega) hc

/-- The same conclusions for the RDO sign-bit-hiding pass; the rate
increment arrays are `int`-valued, which bounds the candidate cost at
`lastNZPosInCG` below `MAX_INT64`. -/
theorem rdoqSBH_spec (dst resiDct dU up down sigd : Nat → Int) (rdFactor : Int)
    (scan : Nat → Nat) (cgLast ns N : Nat)
    (hN : 16 * (cgLast + 1) ≤ N)
    (hscan_lt : ∀ i < N, scan i < N)
    (hscan_inj : ∀ i < N, ∀ j < N, scan i = scan j → i = j)
    (hns : ns = countNZ dst N)
    (hrange : RangeOK dst N)
    (hsgn : SignOK resiDct dst N)
    (hqz : ∀ b < N, resiDct b = 0 → dst b = 0)
    (hup : ∀ b < N, (up b).natAbs ≤ 2 ^ 31)
    (hdown : ∀ b < N, (down b).natAbs ≤ 2 ^ 31)
    (hsigd : ∀ b < N, (sigd b).natAbs ≤ 2 ^ 31) :
    (rdoqSBH dst resiDct dU up down sigd rdFactor scan cgLast ns).2
        = countNZ (rdoqSBH dst resiDct dU up down sigd rdFactor scan cgLast ns).1 N
    ∧ RangeOK (rdoqSBH dst resiDct dU up down sigd rdFactor scan cgLast ns).1 N
    ∧ SignOK resiDct (rdoqSBH dst resiDct dU up down sigd rdFactor scan cgLast ns).1 N
    ∧ (∀ t ≤ cgLast,
        cgParityOK (rdoqSBH dst resiDct dU up down sigd rdFactor scan cgLast ns).1 scan t)
    ∧ (∀ t ≤ cgLast,
        cgPerturbOK dst (rdoqSBH dst resiDct dU up down sigd rdFactor scan cgLast ns).1 scan t)
    ∧ (∀ t ≤ cgLast,
        cgFirstKept dst (rdoqSBH dst resiDct dU up down sigd rdFactor scan cgLast ns).1 scan t)
    ∧ (∀ n < 16 * (cgLast + 1), resiDct (scan n) = 0 →
        (rdoqSBH dst resiDct dU up down sigd rdFactor scan cgLast ns).1 (scan n) = 0
        ∨ (rdoqSBH dst resiDct dU up down sigd rdFactor scan cgLast ns).1 (scan n) = 1)
    ∧ (∀ x, (∀ i < 16 * (cgLast + 1), x ≠ scan i) →
        (rdoqSBH dst resiDct dU up down sigd rdFactor scan cgLast ns).1 x = dst x) := by
  have hm := sbhGo_master resiDct scan MAX_INT64
    (rdoqMk dU up down sigd resiDct rdFactor scan) N dst
    hscan_lt hscan_inj
    (fun q lastCG subPos F L signbit n h =>
      rdoqMk_shape dU up down sigd resiDct rdFactor scan q lastCG subPos F L signbit n h)
    (fun q lastCG s F L signbit hs hL16 hq hLF =>
      rdoqMk_atL dU up down sigd resiDct rdFactor scan q lastCG (s * 16) F L signbit
        hq hLF
        (hup _ (hscan_lt _ (by omega)))
        (hdown _ (hscan_lt _ (by omega)))
        (hsigd _ (hscan_lt _ (by omega))))
    hqz cgLast hN ⟨dst, ns, true⟩ hns hrange hsgn (fun n _ => rfl)
  obtain ⟨b1, b2, b3, b4, b5, b6, b7, b8⟩ := hm
  unfold rdoqSBH
  dsimp only
  exact ⟨b1, b2, b3, b5, b6, b7, fun n hn hc => b8 n hn hc, fun x hx => b4 x hx⟩

/-! ## Facts about the RDOQ level search and finalization -/

theorem foldl_pick_mem (accept : Nat → Bool) (g : Nat → Nat) (P : Nat → Prop) :
    ∀ l : List Nat, (∀ j ∈ l, P (g j)) →
      ∀ acc : Nat, (acc = 0 ∨ P acc) →
        (l.foldl (fun lvlAcc j => if accept (g j) then g j else lvlAcc) acc = 0
         ∨ P (l.foldl (fun lvlAcc j => if accept (g j) then g j else lvlAcc) acc)) := by
  intro l
  induction l with
  | nil => intro _ acc h; exact h
  | cons a t ih =>
    intro hl acc h
    simp only [List.foldl_cons]
    apply ih (fun j hj => hl j (List.mem_cons_of_mem a hj))
    by_cases hc : accept (g a)
    · rw [if_pos hc]
      right
      exact hl a (List.mem_cons_self a t)
    · rw [if_neg hc]
      exact h

theorem rdoCodedLevel_mem (accept : Nat → Bool) (maxAbsLevel : Nat) :
    rdoCodedLevel accept maxAbsLevel = 0
    ∨ (max (maxAbsLevel - 1) 1 ≤ rdoCodedLevel accept maxAbsLevel
       ∧ rdoCodedLevel accept maxAbsLevel ≤ maxAbsLevel) := by
  unfold rdoCodedLevel
  apply foldl_pick_mem accept (fun j => maxAbsLevel - j)
    (fun x => max (maxAbsLevel - 1) 1 ≤ x ∧ x ≤ maxAbsLevel)
  · intro j hj
    have hj' := List.mem_range.mp hj
    omega
  · left
    rfl

theorem rdoCodedLevel_le (accept : Nat → Bool) (maxAbsLevel : Nat) :
    rdoCodedLevel accept maxAbsLevel ≤ maxAbsLevel := by
  rcases rdoCodedLevel_mem accept maxAbsLevel with h | h
  · omega
  · exact h.2

theorem nquantLevel_le_ceilq (s qbits : Nat) (h : 1 ≤ qbits) :
    nquantLevel s qbits ≤ ceilq s qbits := by
  unfold nquantLevel ceilq
  apply Nat.div_le_div_right
  have h2 : 2 ^ qbits = 2 ^ (qbits - 1) * 2 := by
    rw [← pow_succ]
    congr 1
    omega
  have h1 : 1 ≤ 2 ^ (qbits - 1) := Nat.one_le_two_pow
  omega

theorem rdoqFinalizeA_spec (dst resiDct : Nat → Int) (scan : Nat → Nat) (N : Nat)
    (hscan_inj : ∀ i < N, ∀ j < N, scan i = scan j → i = j) :
    ∀ k ≤ N,
      (∀ x, (∀ pos < k, scan pos ≠ x) → (rdoqFinalizeA dst resiDct scan k).1 x = dst x)
      ∧ (∀ pos < k, (rdoqFinalizeA dst resiDct scan k).1 (scan pos)
          = toInt16 (if 0 ≤ resiDct (scan pos)
              then dst (scan pos) else -(dst (scan pos))))
      ∧ (rdoqFinalizeA dst resiDct scan k).2
          = ∑ pos ∈ Finset.range k, (if dst (scan pos) = 0 then (0 : Nat) else 1) := by
  intro k
  induction k with
  | zero =>
    intro _
    refine ⟨fun x _ => rfl, fun pos hpos => absurd hpos (by omega),
      by rw [Finset.range_zero, Finset.sum_empty]; rfl⟩
  | succ k ih =>
    intro hkN
    obtain ⟨ih1, ih2, ih3⟩ := ih (by omega)
    have hstep : rdoqFinalizeA dst resiDct scan (k + 1)
        = (Function.update (rdoqFinalizeA dst resiDct scan k).1 (scan k)
            (toInt16 (if 0 ≤ resiDct (scan k)
              then (rdoqFinalizeA dst resiDct scan k).1 (scan k)
              else -((rdoqFinalizeA dst resiDct scan k).1 (scan k)))),
           (rdoqFinalizeA dst resiDct scan k).2
             + if (rdoqFinalizeA dst resiDct scan k).1 (scan k) = 0 then 0 else 1) := rfl
    have hatk : (rdoqFinalizeA dst resiDct scan k).1 (scan k) = dst (scan k) := by
      apply ih1
      intro pos hpos hc
      have := hscan_inj pos (by omega) k (by omega) hc
      omega
    refine ⟨?_, ?_, ?_⟩
    · intro x hx
      rw [hstep]
      dsimp only
      rw [Function.update_noteq (by exact fun hc => hx k (by omega) hc.symm)]
      exact ih1 x (fun pos hpos => hx pos (by omega))
    · intro pos hpos
      rw [hstep]
      dsimp only
      by_cases hpk : pos = k
      · subst hpk
        rw [Function.update_same, hatk]
      · have hne : scan pos ≠ scan k := by
          intro hc
          exact hpk (hscan_inj pos (by omega) k (by omega) hc)
        rw [Function.update_noteq hne]
        exact ih2 pos (by omega)
    · rw [hstep]
      dsimp only
      rw [ih3, hatk, Finset.sum_range_succ]

theorem finGo_tail_ns (scan : Nat → Nat) (best : Nat) :
    ∀ (m : Nat) (st : (Nat → Int) × Nat),
      (finGo (fun j st => (Function.update st.1 (scan (best + j)) 0, st.2)) m st).2
        = st.2 := by
  intro m
  induction m with
  | zero => intro st; rfl
  | succ m ih =>
    intro st
    show (Function.update _ _ _,
      (finGo (fun j st => (Function.update st.1 (scan (best + j)) 0, st.2)) m st).2).2 = st.2
    exact ih st

theorem finGo_tail_frame (scan : Nat → Nat) (best : Nat) :
    ∀ (m : Nat) (st : (Nat → Int) × Nat) (x : Nat),
      (∀ j < m, scan (best + j) ≠ x) →
      (finGo (fun j st => (Function.update st.1 (scan (best + j)) 0, st.2)) m st).1 x
        = st.1 x := by
  intro m
  induction m with
  | zero => intro st x _; rfl
  | succ m ih =>
    intro st x hx
    show (Function.update
      (finGo (fun j st => (Function.update st.1 (scan (best + j)) 0, st.2)) m st).1
      (scan (best + m)) 0) x = st.1 x
    rw [Function.update_noteq (by exact fun hc => hx m (by omega) hc.symm)]
    exact ih st x (fun j hj => hx j (by omega))

theorem finGo_tail_zero (scan : Nat → Nat) (best : Nat) :
    ∀ (m : Nat) (st : (Nat → Int) × Nat) (j : Nat), j < m →
      (finGo (fun j st => (Function.update st.1 (scan (best + j)) 0, st.2)) m st).1
          (scan (best + j)) = 0 := by
  intro m
  induction m with
  | zero => intro st j hj; omega
  | succ m ih =>
    intro st j hj
    show (Function.update
      (finGo (fun j st => (Function.update st.1 (scan (best + j)) 0, st.2)) m st).1
      (scan (best + m)) 0) (scan (best + j)) = 0
    by_cases hjm : j = m
    · subst hjm
      rw [Function.update_same]
    · by_cases hc : scan (best + j) = scan (best + m)
      · rw [hc, Function.update_same]
      · rw [Function.update_noteq hc]
        exact ih st j (by omega)

theorem rdoqFinalize_facts (dst resiDct : Nat → Int) (scan : Nat → Nat)
    (best last N : Nat)
    (hscan_lt : ∀ i < N, scan i < N)
    (hscan_inj : ∀ i < N, ∀ j < N, scan i = scan j → i = j)
    (hbl : best ≤ last + 1) (hlN : last < N)
    (hnn : ∀ b < N, 0 ≤ dst b) (hub : ∀ b < N, dst b ≤ 32767)
    (habove : ∀ p, last < p → p < N → dst (scan p) = 0) :
    (rdoqFinalize dst resiDct scan best last).2
        = countNZ (rdoqFinalize dst resiDct scan best last).1 N
    ∧ RangeOK (rdoqFinalize dst resiDct scan best last).1 N
    ∧ SignOK resiDct (rdoqFinalize dst resiDct scan best last).1 N
    ∧ (∀ b < N, ((rdoqFinalize dst resiDct scan best last).1 b).natAbs
        ≤ (dst b).natAbs) := by
  obtain ⟨hA1, hA2, hA3⟩ := rdoqFinalizeA_spec dst resiDct scan N hscan_inj best (by omega)
  have hF : rdoqFinalize dst resiDct scan best last
      = finGo (fun j st => (Function.update st.1 (scan (best + j)) 0, st.2))
          (last + 1 - best) (rdoqFinalizeA dst resiDct scan best) := rfl
  -- value description of the final block, indexed through the scan
  have hval : ∀ p < N,
      (rdoqFinalize dst resiDct scan best last).1 (scan p)
        = if p < best then
            toInt16 (if 0 ≤ resiDct (scan p) then dst (scan p) else -(dst (scan p)))
          else 0 := by
    intro p hp
    by_cases hpb : p < best
    · rw [if_pos hpb, hF]
      rw [finGo_tail_frame]
      · exact hA2 p hpb
      · intro j hj hc
        have := hscan_inj (best + j) (by omega) p (by omega) hc
        omega
    · rw [if_neg hpb]
      by_cases hpl : p ≤ last
      · have hj : p = best + (p - best) := by omega
        rw [hF, hj]
        exact finGo_tail_zero scan best (last + 1 - best) _ (p - best) (by omega)
      · rw [hF, finGo_tail_frame]
        · rw [hA1]
          · exact habove p (by omega) hp
          · intro pos hpos hc
            have := hscan_inj pos (by omega) p (by omega) hc
            omega
        · intro j hj hc
          have := hscan_inj (best + j) (by omega) p (by omega) hc
          omega
  have hvr : ∀ p < N, p < best →
      (rdoqFinalize dst resiDct scan best last).1 (scan p)
        = if 0 ≤ resiDct (scan p) then dst (scan p) else -(dst (scan p)) := by
    intro p hp hpb
    rw [hval p hp, if_pos hpb]
    have h1 := hnn (scan p) (hscan_lt p hp)
    have h2 := hub (scan p) (hscan_lt p hp)
    apply toInt16_of_range <;> split <;> omega
  refine ⟨?_, ?_, ?_, ?_⟩
  · -- the recomputed numSig equals the nonzero count
    rw [hF, finGo_tail_ns, hA3]
    rw [countNZ_scan _ scan N hscan_lt hscan_inj]
    rw [← hF]
    have hsplit : Finset.range N = Finset.Ico 0 N := by rw [Finset.range_eq_Ico]
    rw [hsplit, ← Finset.sum_Ico_consecutive _ (Nat.zero_le best) (by omega : best ≤ N)]
    have hz : ∑ p ∈ Finset.Ico best N,
        (if (rdoqFinalize dst resiDct scan best last).1 (scan p) = 0 then (0 : Nat) else 1)
          = 0 := by
      apply Finset.sum_eq_zero
      intro p hp
      obtain ⟨hp1, hp2⟩ := Finset.mem_Ico.mp hp
      rw [hval p hp2, if_neg (show ¬p < best by omega)]
      simp
    rw [hz, Nat.add_zero, ← Finset.range_eq_Ico]
    apply Finset.sum_congr rfl
    intro p hp
    have hpb := Finset.mem_range.mp hp
    rw [hvr p (by omega) hpb]
    by_cases hd : dst (scan p) = 0
    · rw [hd]
      simp
    · rw [if_neg hd,
        if_neg (show ¬(if 0 ≤ resiDct (scan p) then dst (scan p)
          else -dst (scan p)) = 0 by split <;> omega)]
  · -- int16 range
    intro b hb
    obtain ⟨p, hpN, rfl⟩ := scan_surj scan N hscan_lt hscan_inj b hb
    by_cases hpb : p < best
    · rw [hvr p hpN hpb]
      have h1 := hnn (scan p) (hscan_lt p hpN)
      have h2 := hub (scan p) (hscan_lt p hpN)
      split <;> omega
    · rw [hval p hpN, if_neg hpb]
      omega
  · -- weak sign compatibility with the DCT block
    intro b hb
    obtain ⟨p, hpN, rfl⟩ := scan_surj scan N hscan_lt hscan_inj b hb
    by_cases hpb : p < best
    · rw [hvr p hpN hpb]
      have h1 := hnn (scan p) (hscan_lt p hpN)
      constructor
      · intro hpos
        by_contra hneg
        rw [if_neg (by omega)] at hpos
        omega
      · intro hneg
        by_contra hge
        rw [if_pos (by omega)] at hneg
        omega
    · rw [hval p hpN, if_neg hpb]
      constructor <;> omega
  · -- magnitudes never grow
    intro b hb
    obtain ⟨p, hpN, rfl⟩ := scan_surj scan N hscan_lt hscan_inj b hb
    by_cases hpb : p < best
    · rw [hvr p hpN hpb]
      split <;> simp
    · rw [hval p hpN, if_neg hpb]
      simp

/-! ## The full plain-quantization path -/

theorem quantAdd_lt (isISlice : Bool) (qbits : Nat) (h : 9 ≤ qbits) :
    quantAdd isISlice qbits < 2 ^ qbits := by
  unfold quantAdd
  have h2 : 2 ^ qbits = 512 * 2 ^ (qbits - 9) := by
    rw [show (512 : Nat) = 2 ^ 9 by norm_num, ← pow_add]
    congr 1
    omega
  have h1 : 0 < 2 ^ (qbits - 9) := Nat.two_pow_pos _
  rw [h2]
  split
  · exact (Nat.mul_lt_mul_right h1).mpr (by norm_num)
  · exact (Nat.mul_lt_mul_right h1).mpr (by norm_num)

theorem strictSign {coefb qb : Int} (h1 : 0 < qb → 0 ≤ coefb)
    (h2 : qb < 0 → coefb < 0) (hnz : qb ≠ 0) (hc : coefb ≠ 0) :
    0 < qb ↔ 0 < coefb := by
  omega

theorem cgPerturbOK_natAbs (q0 q1 : Nat → Int) (scan : Nat → Nat) (s : Nat)
    (h : cgPerturbOK q0 q1 scan s) :
    ∀ n < 16, (q1 (scan (n + s * 16))).natAbs ≤ (q0 (scan (n + s * 16))).natAbs + 1 := by
  intro n hn
  rcases h with h | ⟨m, hm, hd, hoth⟩
  · rw [h n hn]
    omega
  · by_cases hnm : n = m
    · subst hnm
      omega
    · rw [hoth n hn hnm]
      omega

theorem quantHDQ_facts (dct : Nat → Int) (scaling : Nat → Nat)
    (qbits : Nat) (isISlice signHide : Bool) (scan : Nat → Nat) (cgNum : Nat)
    (hq : 9 ≤ qbits) (hcg : 1 ≤ cgNum)
    (hscan_lt : ∀ i < 16 * cgNum, scan i < 16 * cgNum)
    (hscan_inj : ∀ i < 16 * cgNum, ∀ j < 16 * cgNum, scan i = scan j → i = j) :
    (quantHDQ dct scaling qbits isISlice signHide scan cgNum).2
        = countNZ (quantHDQ dct scaling qbits isISlice signHide scan cgNum).1 (16 * cgNum)
    ∧ RangeOK (quantHDQ dct scaling qbits isISlice signHide scan cgNum).1 (16 * cgNum)
    ∧ SignOK dct (quantHDQ dct scaling qbits isISlice signHide scan cgNum).1 (16 * cgNum)
    ∧ (∀ b < 16 * cgNum, dct b = 0 →
        (quantHDQ dct scaling qbits isISlice signHide scan cgNum).1 b = 0
        ∨ (quantHDQ dct scaling qbits isISlice signHide scan cgNum).1 b = 1) := by
  have hadd := quantAdd_lt isISlice qbits hq
  unfold quantHDQ
  by_cases hcond : 2 ≤ (primQuant dct scaling qbits (quantAdd isISlice qbits)
      (16 * cgNum)).2.2 ∧ signHide = true
  · rw [if_pos hcond]
    have hs := signBitHidingHDQ_spec
      (primQuant dct scaling qbits (quantAdd isISlice qbits) (16 * cgNum)).1 dct
      (primQuant dct scaling qbits (quantAdd isISlice qbits) (16 * cgNum)).2.1
      scan cgNum
      (primQuant dct scaling qbits (quantAdd isISlice qbits) (16 * cgNum)).2.2
      hcg hscan_lt hscan_inj
      (primQuant_count dct scaling qbits (quantAdd isISlice qbits) (16 * cgNum))
      (primQuant_range dct scaling qbits (quantAdd isISlice qbits) (16 * cgNum))
      (primQuant_sign dct scaling qbits (quantAdd isISlice qbits) (16 * cgNum))
      (fun b _ hc => primQuant_zero dct scaling qbits (quantAdd isISlice qbits)
        (16 * cgNum) hadd b hc)
    obtain ⟨h1, h2, h3, _, _, _, h7⟩ := hs
    refine ⟨h1, h2, h3, ?_⟩
    intro b hb hdz
    obtain ⟨n, hn, rfl⟩ := scan_surj scan (16 * cgNum) hscan_lt hscan_inj b hb
    exact h7 n hn hdz
  · rw [if_neg hcond]
    refine ⟨primQuant_count dct scaling qbits (quantAdd isISlice qbits) (16 * cgNum),
      primQuant_range dct scaling qbits (quantAdd isISlice qbits) (16 * cgNum),
      primQuant_sign dct scaling qbits (quantAdd isISlice qbits) (16 * cgNum), ?_⟩
    intro b _ hdz
    exact Or.inl (primQuant_zero dct scaling qbits (quantAdd isISlice qbits)
      (16 * cgNum) hadd b hdz)

/-! ## Concrete blocks used by the counterexamples -/

/-- Modelled from the spec: the 4×4 diagonal scan pattern of one 8×8
coefficient group (the scan tables live outside `src/`): scan index to
block offset within the group. -/
def scanDiag4 : List Nat := [0, 8, 1, 16, 9, 2, 24, 17, 10, 3, 25, 18, 11, 26, 19, 27]

/-- Modelled from the spec: the HEVC 8×8 diagonal scan order, groups
ordered diagonally with bases `0, 32, 4, 36`. -/
def scan8 : Nat → Nat := fun n =>
  [0, 32, 4, 36].getD (n / 16) 0 + scanDiag4.getD (n % 16) 0

/-- Concrete 8×8 DCT block: `16` at position 1, `32` at position 3,
`16` at position 32, zero elsewhere. -/
def cDct : Nat → Int := fun b =>
  if b = 1 then 16 else if b = 3 then 32 else if b = 32 then 16 else 0

/-- Flat scaling list with all entries `16384`. -/
def cScaling : Nat → Nat := fun _ => 16384

/-- Concrete RDOQ levels entering the RDO sign-bit-hiding pass. -/
def c3Dst : Nat → Int := fun b =>
  if b = 1 then 1 else if b = 3 then 2 else if b = 32 then 1 else 0

/-- Concrete `rateIncUp` array. -/
def c3Up : Nat → Int := fun b => if b = 3 then 32768 else 0

/-- Concrete `rateIncDown` array. -/
def c3Down : Nat → Int := fun b =>
  if b = 1 then 32768 else if b = 3 then 32768 else 0

/-- Concrete `sigRateDelta` array. -/
def c3Sigd : Nat → Int := fun b => if b = 27 then -32768 else 0

/-! ## Claims C5 and C4 -/

/-- C5: after `Quant::signBitHidingHDQ`, every coefficient group whose
last-to-first nonzero distance is at least `SBH_THRESHOLD` has the sign
bit of its first nonzero coefficient equal to the parity of the sum of
the magnitudes of its coefficients; each group is changed in at most one
position, by exactly ±1; and a first nonzero coefficient of magnitude 1
is never turned into zero. -/
theorem c5_sbh_parity_law (qC coef dU : Nat → Int) (scan : Nat → Nat)
    (cgNum ns : Nat)
    (hcg : 1 ≤ cgNum)
    (hscan_lt : ∀ i < 16 * cgNum, scan i < 16 * cgNum)
    (hscan_inj : ∀ i < 16 * cgNum, ∀ j < 16 * cgNum, scan i = scan j → i = j)
    (hns : ns = countNZ qC (16 * cgNum))
    (hrange : RangeOK qC (16 * cgNum))
    (hsgn : SignOK coef qC (16 * cgNum))
    (hqz : ∀ b < 16 * cgNum, coef b = 0 → qC b = 0) :
    (∀ t < cgNum, cgParityOK (signBitHidingHDQ qC coef dU scan cgNum ns).1 scan t)
    ∧ (∀ t < cgNum, cgPerturbOK qC (signBitHidingHDQ qC coef dU scan cgNum ns).1 scan t)
    ∧ (∀ t < cgNum, cgFirstKept qC (signBitHidingHDQ qC coef dU scan cgNum ns).1 scan t) := by
  obtain ⟨_, _, _, h4, h5, h6, _⟩ := signBitHidingHDQ_spec qC coef dU scan cgNum ns
    hcg hscan_lt hscan_inj hns hrange hsgn hqz
  exact ⟨h4, h5, h6⟩

theorem c5_sbh_parity_law_witness :
    ((1 : Nat) = countNZ (fun b => if b = 0 then 1 else 0) (16 * 1))
    ∧ ((∀ t < 1, cgParityOK
        (signBitHidingHDQ (fun b => if b = 0 then 1 else 0)
          (fun b => if b = 0 then 5 else 0) (fun _ => 0) (fun n => n) 1 1).1
        (fun n => n) t)
      ∧ (∀ t < 1, cgPerturbOK (fun b => if b = 0 then 1 else 0)
        (signBitHidingHDQ (fun b => if b = 0 then 1 else 0)
          (fun b => if b = 0 then 5 else 0) (fun _ => 0) (fun n => n) 1 1).1
        (fun n => n) t)
      ∧ (∀ t < 1, cgFirstKept (fun b => if b = 0 then 1 else 0)
        (signBitHidingHDQ (fun b => if b = 0 then 1 else 0)
          (fun b => if b = 0 then 5 else 0) (fun _ => 0) (fun n => n) 1 1).1
        (fun n => n) t)) :=
  ⟨by decide,
   c5_sbh_parity_law (fun b => if b = 0 then 1 else 0)
     (fun b => if b = 0 then 5 else 0) (fun _ => 0) (fun n => n) 1 1
     (by decide) (fun i hi => hi) (fun i _ j _ h => h) (by decide)
     (by decide) (by decide) (by decide)⟩

/-- C4: every output coefficient of the encode paths lies in the signed
16-bit range `[-32768, 32767]`: the plain quantizer saturates at `32767`,
both sign-bit-hiding passes clamp a selected `32767` or `-32768` coefficient
to a decrement-only change, and the RDOQ finalization writes values whose
magnitudes never exceed the incoming (nonnegative, int16) levels. -/
theorem c4_int16_range :
    (∀ (dct : Nat → Int) (scaling : Nat → Nat) (qbits : Nat)
        (isISlice signHide : Bool) (scan : Nat → Nat) (cgNum : Nat),
      9 ≤ qbits → 1 ≤ cgNum →
      (∀ i < 16 * cgNum, scan i < 16 * cgNum) →
      (∀ i < 16 * cgNum, ∀ j < 16 * cgNum, scan i = scan j → i = j) →
      RangeOK (quantHDQ dct scaling qbits isISlice signHide scan cgNum).1 (16 * cgNum))
    ∧ (∀ (dst resiDct dU up down sigd : Nat → Int) (rdFactor : Int)
        (scan : Nat → Nat) (cgLast ns N : Nat),
      16 * (cgLast + 1) ≤ N →
      (∀ i < N, scan i < N) →
      (∀ i < N, ∀ j < N, scan i = scan j → i = j) →
      ns = countNZ dst N →
      RangeOK dst N →
      SignOK resiDct dst N →
      (∀ b < N, resiDct b = 0 → dst b = 0) →
      (∀ b < N, (up b).natAbs ≤ 2 ^ 31) →
      (∀ b < N, (down b).natAbs ≤ 2 ^ 31) →
      (∀ b < N, (sigd b).natAbs ≤ 2 ^ 31) →
      RangeOK (rdoqSBH dst resiDct dU up down sigd rdFactor scan cgLast ns).1 N)
    ∧ (∀ (dst resiDct : Nat → Int) (scan : Nat → Nat) (best last N : Nat),
      (∀ i < N, scan i < N) →
      (∀ i < N, ∀ j < N, scan i = scan j → i = j) →
      best ≤ last + 1 → last < N →
      (∀ b < N, 0 ≤ dst b) → (∀ b < N, dst b ≤ 32767) →
      (∀ p, last < p → p < N → dst (scan p) = 0) →
      RangeOK (rdoqFinalize dst resiDct scan best last).1 N) := by
  refine ⟨?_, ?_, ?_⟩
  · intro dct scaling qbits isISlice signHide scan cgNum hq hcg hlt hinj
    exact (quantHDQ_facts dct scaling qbits isISlice signHide scan cgNum
      hq hcg hlt hinj).2.1
  · intro dst resiDct dU up down sigd rdFactor scan cgLast ns N
      hN hlt hinj hns hrange hsgn hqz hup hdown hsigd
    exact (rdoqSBH_spec dst resiDct dU up down sigd rdFactor scan cgLast ns N
      hN hlt hinj hns hrange hsgn hqz hup hdown hsigd).2.1
  · intro dst resiDct scan best last N hlt hinj hbl hlN hnn hub habove
    exact (rdoqFinalize_facts dst resiDct scan best last N
      hlt hinj hbl hlN hnn hub habove).2.1

theorem c4_int16_range_witness :
    ((9 : Nat) ≤ 18)
    ∧ RangeOK (quantHDQ (fun b => if b = 0 then 100 else 0) (fun _ => 16384)
        18 false false (fun n => n) 1).1 (16 * 1)
    ∧ RangeOK (rdoqSBH (fun _ => 0) (fun _ => 0) (fun _ => 0) (fun _ => 0)
        (fun _ => 0) (fun _ => 0) 0 (fun n => n) 0 0).1 16
    ∧ RangeOK (rdoqFinalize (fun b => if b = 0 then 1 else 0)
        (fun b => if b = 0 then 1 else 0) (fun n => n) 1 1).1 16 :=
  ⟨by decide,
   c4_int16_range.1 (fun b => if b = 0 then 100 else 0) (fun _ => 16384)
     18 false false (fun n => n) 1 (by decide) (by decide)
     (fun i hi => hi) (fun i _ j _ h => h),
   c4_int16_range.2.1 (fun _ => 0) (fun _ => 0) (fun _ => 0) (fun _ => 0)
     (fun _ => 0) (fun _ => 0) 0 (fun n => n) 0 0 16 (by decide)
     (fun i hi => hi) (fun i _ j _ h => h) (by decide) (by decide)
     (by decide) (by decide) (by decide) (by decide) (by decide),
   c4_int16_range.2.2 (fun b => if b = 0 then 1 else 0)
     (fun b => if b = 0 then 1 else 0) (fun n => n) 1 1 16
     (fun i hi => hi) (fun i _ j _ h => h) (by decide) (by decide)
     (by decide) (by decide)
     (fun p hp1 _ => if_neg (show ¬p = 0 by omega))⟩

/-! ## Claim C1 -/

/-- C1: on every encode path the returned `numSig` equals the number of
nonzero entries of the output coefficient block: the bypass copy counts
its nonzero samples, `Quant::quant` (with or without the sign-bit-hiding
post-pass, whose incremental bookkeeping is covered by the pass theorem),
the RDO sign-bit-hiding pass, and the RDOQ finalization recount all
return the exact count. -/
theorem c1_numSig_exact :
    (∀ (residual : Nat → Nat → Int) (trSize : Nat),
      (∀ k < trSize, ∀ j < trSize,
        -32768 ≤ residual k j ∧ residual k j ≤ 32767) →
      (transformBypass residual trSize).2
        = countNZ2 (transformBypass residual trSize).1 trSize)
    ∧ (∀ (dct : Nat → Int) (scaling : Nat → Nat) (qbits : Nat)
        (isISlice signHide : Bool) (scan : Nat → Nat) (cgNum : Nat),
      9 ≤ qbits → 1 ≤ cgNum →
      (∀ i < 16 * cgNum, scan i < 16 * cgNum) →
      (∀ i < 16 * cgNum, ∀ j < 16 * cgNum, scan i = scan j → i = j) →
      (quantHDQ dct scaling qbits isISlice signHide scan cgNum).2
        = countNZ (quantHDQ dct scaling qbits isISlice signHide scan cgNum).1
            (16 * cgNum))
    ∧ (∀ (dst resiDct dU up down sigd : Nat → Int) (rdFactor : Int)
        (scan : Nat → Nat) (cgLast ns N : Nat),
      16 * (cgLast + 1) ≤ N →
      (∀ i < N, scan i < N) →
      (∀ i < N, ∀ j < N, scan i = scan j → i = j) →
      ns = countNZ dst N →
      RangeOK dst N →
      SignOK resiDct dst N →
      (∀ b < N, resiDct b = 0 → dst b = 0) →
      (∀ b < N, (up b).natAbs ≤ 2 ^ 31) →
      (∀ b < N, (down b).natAbs ≤ 2 ^ 31) →
      (∀ b < N, (sigd b).natAbs ≤ 2 ^ 31) →
      (rdoqSBH dst resiDct dU up down sigd rdFactor scan cgLast ns).2
        = countNZ (rdoqSBH dst resiDct dU up down sigd rdFactor scan cgLast ns).1 N)
    ∧ (∀ (dst resiDct : Nat → Int) (scan : Nat → Nat) (best last N : Nat),
      (∀ i < N, scan i < N) →
      (∀ i < N, ∀ j < N, scan i = scan j → i = j) →
      best ≤ last + 1 → last < N →
      (∀ b < N, 0 ≤ dst b) → (∀ b < N, dst b ≤ 32767) →
      (∀ p, last < p → p < N → dst (scan p) = 0) →
      (rdoqFinalize dst resiDct scan best last).2
        = countNZ (rdoqFinalize dst resiDct scan best last).1 N) := by
  refine ⟨?_, ?_, ?_, ?_⟩
  · intro residual trSize hr
    unfold transformBypass countNZ2
    dsimp only
    apply Finset.sum_congr rfl
    intro k hk
    apply Finset.sum_congr rfl
    intro j hj
    rw [toInt16_of_range
      (hr k (Finset.mem_range.mp hk) j (Finset.mem_range.mp hj)).1
      (hr k (Finset.mem_range.mp hk) j (Finset.mem_range.mp hj)).2]
  · intro dct scaling qbits isISlice signHide scan cgNum hq hcg hlt hinj
    exact (quantHDQ_facts dct scaling qbits isISlice signHide scan cgNum
      hq hcg hlt hinj).1
  · intro dst resiDct dU up down sigd rdFactor scan cgLast ns N
      hN hlt hinj hns hrange hsgn hqz hup hdown hsigd
    exact (rdoqSBH_spec dst resiDct dU up down sigd rdFactor scan cgLast ns N
      hN hlt hinj hns hrange hsgn hqz hup hdown hsigd).1
  · intro dst resiDct scan best last N hlt hinj hbl hlN hnn hub habove
    exact (rdoqFinalize_facts dst resiDct scan best last N
      hlt hinj hbl hlN hnn hub habove).1

theorem c1_numSig_exact_witness :
    ((∀ k < 1, ∀ j < 1,
        -32768 ≤ (fun _ _ => (7 : Int)) k j ∧ (fun _ _ => (7 : Int)) k j ≤ 32767)
      ∧ (transformBypass (fun _ _ => (7 : Int)) 1).2
          = countNZ2 (transformBypass (fun _ _ => (7 : Int)) 1).1 1)
    ∧ (quantHDQ (fun b => if b = 0 then 100 else 0) (fun _ => 16384)
        18 false false (fun n => n) 1).2
        = countNZ (quantHDQ (fun b => if b = 0 then 100 else 0) (fun _ => 16384)
            18 false false (fun n => n) 1).1 (16 * 1)
    ∧ (rdoqSBH (fun _ => 0) (fun _ => 0) (fun _ => 0) (fun _ => 0)
        (fun _ => 0) (fun _ => 0) 0 (fun n => n) 0 0).2
        = countNZ (rdoqSBH (fun _ => 0) (fun _ => 0) (fun _ => 0) (fun _ => 0)
            (fun _ => 0) (fun _ => 0) 0 (fun n => n) 0 0).1 16
    ∧ (rdoqFinalize (fun b => if b = 0 then 1 else 0)
        (fun b => if b = 0 then 1 else 0) (fun n => n) 1 1).2
        = countNZ (rdoqFinalize (fun b => if b = 0 then 1 else 0)
            (fun b => if b = 0 then 1 else 0) (fun n => n) 1 1).1 16 :=
  ⟨⟨by decide, c1_numSig_exact.1 (fun _ _ => (7 : Int)) 1 (by decide)⟩,
   c1_numSig_exact.2.1 (fun b => if b = 0 then 100 else 0) (fun _ => 16384)
     18 false false (fun n => n) 1 (by decide) (by decide)
     (fun i hi => hi) (fun i _ j _ h => h),
   c1_numSig_exact.2.2.1 (fun _ => 0) (fun _ => 0) (fun _ => 0) (fun _ => 0)
     (fun _ => 0) (fun _ => 0) 0 (fun n => n) 0 0 16 (by decide)
     (fun i hi => hi) (fun i _ j _ h => h) (by decide) (by decide)
     (by decide) (by decide) (by decide) (by decide) (by decide),
   c1_numSig_exact.2.2.2 (fun b => if b = 0 then 1 else 0)
     (fun b => if b = 0 then 1 else 0) (fun n => n) 1 1 16
     (fun i hi => hi) (fun i _ j _ h => h) (by decide) (by decide)
     (by decide) (by decide)
     (fun p hp1 _ => if_neg (show ¬p = 0 by omega))⟩

/-! ## Claim C2 -/

set_option maxRecDepth 10000 in
/-- C2 counterexample: on the concrete 8×8 block `cDct` (plain
quantization, P-slice, `qbits = 18`, flat scaling `16384`, sign hiding
on), the sign-bit-hiding pass writes the coefficient `+1` at block
position 27 although the DCT coefficient there is `0` — a nonzero output
whose sign does not equal the sign of the pre-quantization coefficient. -/
theorem c2_sign_counterexample :
    (quantHDQ cDct cScaling 18 false true scan8 4).1 27 = 1 ∧ cDct 27 = 0 := by
  decide

/-- C2 (amended): on every encode path, a nonzero output coefficient
sitting on a nonzero DCT coefficient has exactly the DCT coefficient's
sign; on a zero DCT coefficient the sign-bit-hiding passes can produce
only the value `+1` (and the RDOQ finalization, whose inputs vanish
wherever the DCT does, preserves signs strictly). -/
theorem c2_sign_amended :
    (∀ (dct : Nat → Int) (scaling : Nat → Nat) (qbits : Nat)
        (isISlice signHide : Bool) (scan : Nat → Nat) (cgNum : Nat),
      9 ≤ qbits → 1 ≤ cgNum →
      (∀ i < 16 * cgNum, scan i < 16 * cgNum) →
      (∀ i < 16 * cgNum, ∀ j < 16 * cgNum, scan i = scan j → i = j) →
      ∀ b < 16 * cgNum,
        (quantHDQ dct scaling qbits isISlice signHide scan cgNum).1 b ≠ 0 →
        ((dct b ≠ 0 →
          (0 < (quantHDQ dct scaling qbits isISlice signHide scan cgNum).1 b
            ↔ 0 < dct b))
        ∧ (dct b = 0 →
          (quantHDQ dct scaling qbits isISlice signHide scan cgNum).1 b = 1)))
    ∧ (∀ (dst resiDct dU up down sigd : Nat → Int) (rdFactor : Int)
        (scan : Nat → Nat) (cgLast ns N : Nat),
      16 * (cgLast + 1) ≤ N →
      (∀ i < N, scan i < N) →
      (∀ i < N, ∀ j < N, scan i = scan j → i = j) →
      ns = countNZ dst N →
      RangeOK dst N →
      SignOK resiDct dst N →
      (∀ b < N, resiDct b = 0 → dst b = 0) →
      (∀ b < N, (up b).natAbs ≤ 2 ^ 31) →
      (∀ b < N, (down b).natAbs ≤ 2 ^ 31) →
      (∀ b < N, (sigd b).natAbs ≤ 2 ^ 31) →
      ∀ b < N,
        (rdoqSBH dst resiDct dU up down sigd rdFactor scan cgLast ns).1 b ≠ 0 →
        ((resiDct b ≠ 0 →
          (0 < (rdoqSBH dst resiDct dU up down sigd rdFactor scan cgLast ns).1 b
            ↔ 0 < resiDct b))
        ∧ (resiDct b = 0 →
          (rdoqSBH dst resiDct dU up down sigd rdFactor scan cgLast ns).1 b = 1)))
    ∧ (∀ (dst resiDct : Nat → Int) (scan : Nat → Nat) (best last N : Nat),
      (∀ i < N, scan i < N) →
      (∀ i < N, ∀ j < N, scan i = scan j → i = j) →
      best ≤ last + 1 → last < N →
      (∀ b < N, 0 ≤ dst b) → (∀ b < N, dst b ≤ 32767) →
      (∀ p, last < p → p < N → dst (scan p) = 0) →
      (∀ b < N, resiDct b = 0 → dst b = 0) →
      ∀ b < N, (rdoqFinalize dst resiDct scan best last).1 b ≠ 0 →
        (0 < (rdoqFinalize dst resiDct scan best last).1 b ↔ 0 < resiDct b)) := by
  refine ⟨?_, ?_, ?_⟩
  · intro dct scaling qbits isISlice signHide scan cgNum hq hcg hlt hinj b hb hnz
    obtain ⟨_, _, h3, h4⟩ := quantHDQ_facts dct scaling qbits isISlice signHide
      scan cgNum hq hcg hlt hinj
    refine ⟨fun hdnz => strictSign (h3 b hb).1 (h3 b hb).2 hnz hdnz, fun hdz => ?_⟩
    rcases h4 b hb hdz with h | h
    · exact absurd h hnz
    · exact h
  · intro dst resiDct dU up down sigd rdFactor scan cgLast ns N
      hN hlt hinj hns hrange hsgn hqz hup hdown hsigd b hb hnz
    obtain ⟨_, _, h3, _, _, _, h7, h8⟩ := rdoqSBH_spec dst resiDct dU up down sigd
      rdFactor scan cgLast ns N hN hlt hinj hns hrange hsgn hqz hup hdown hsigd
    refine ⟨fun hdnz => strictSign (h3 b hb).1 (h3 b hb).2 hnz hdnz, fun hrz => ?_⟩
    obtain ⟨p, hpN, rfl⟩ := scan_surj scan N hlt hinj b hb
    by_cases hp : p < 16 * (cgLast + 1)
    · rcases h7 p hp hrz with h | h
      · exact absurd h hnz
      · exact h
    · exfalso
      apply hnz
      rw [h8 (scan p) ?_]
      · exact hqz (scan p) (hlt p hpN) hrz
      · intro i hi hc
        have := hinj p hpN i (by omega) hc
        omega
  · intro dst resiDct scan best last N hlt hinj hbl hlN hnn hub habove hqz b hb hnz
    obtain ⟨_, _, h3, h4⟩ := rdoqFinalize_facts dst resiDct scan best last N
      hlt hinj hbl hlN hnn hub habove
    have hrnz : resiDct b ≠ 0 := by
      intro hrz
      have hdz := hqz b hb hrz
      have hle := h4 b hb
      rw [hdz] at hle
      simp only [Int.natAbs_zero, Nat.le_zero, Int.natAbs_eq_zero] at hle
      exact hnz hle
    exact strictSign (h3 b hb).1 (h3 b hb).2 hnz hrnz

theorem c2_sign_amended_witness :
    ((9 : Nat) ≤ 18)
    ∧ (∀ b < 16 * 1,
        (quantHDQ (fun b => if b = 0 then 100 else 0) (fun _ => 16384)
          18 false false (fun n => n) 1).1 b ≠ 0 →
        (((fun b => if b = 0 then (100 : Int) else 0) b ≠ 0 →
          (0 < (quantHDQ (fun b => if b = 0 then 100 else 0) (fun _ => 16384)
            18 false false (fun n => n) 1).1 b
            ↔ 0 < (fun b => if b = 0 then (100 : Int) else 0) b))
        ∧ ((fun b => if b = 0 then (100 : Int) else 0) b = 0 →
          (quantHDQ (fun b => if b = 0 then 100 else 0) (fun _ => 16384)
            18 false false (fun n => n) 1).1 b = 1)))
    ∧ (∀ b < 16, (rdoqSBH (fun _ => 0) (fun _ => 0) (fun _ => 0) (fun _ => 0)
          (fun _ => 0) (fun _ => 0) 0 (fun n => n) 0 0).1 b ≠ 0 →
        (((fun _ => (0 : Int)) b ≠ 0 →
          (0 < (rdoqSBH (fun _ => 0) (fun _ => 0) (fun _ => 0) (fun _ => 0)
            (fun _ => 0) (fun _ => 0) 0 (fun n => n) 0 0).1 b
            ↔ 0 < (fun _ => (0 : Int)) b))
        ∧ ((fun _ => (0 : Int)) b = 0 →
          (rdoqSBH (fun _ => 0) (fun _ => 0) (fun _ => 0) (fun _ => 0)
            (fun _ => 0) (fun _ => 0) 0 (fun n => n) 0 0).1 b = 1)))
    ∧ (∀ b < 16, (rdoqFinalize (fun b => if b = 0 then 1 else 0)
          (fun b => if b = 0 then 1 else 0) (fun n => n) 1 1).1 b ≠ 0 →
        (0 < (rdoqFinalize (fun b => if b = 0 then 1 else 0)
          (fun b => if b = 0 then 1 else 0) (fun n => n) 1 1).1 b
          ↔ 0 < (fun b => if b = 0 then (1 : Int) else 0) b)) :=
  ⟨by decide,
   c2_sign_amended.1 (fun b => if b = 0 then 100 else 0) (fun _ => 16384)
     18 false false (fun n => n) 1 (by decide) (by decide)
     (fun i hi => hi) (fun i _ j _ h => h),
   c2_sign_amended.2.1 (fun _ => 0) (fun _ => 0) (fun _ => 0) (fun _ => 0)
     (fun _ => 0) (fun _ => 0) 0 (fun n => n) 0 0 16 (by decide)
     (fun i hi => hi) (fun i _ j _ h => h) (by decide) (by decide)
     (by decide) (by decide) (by decide) (by decide) (by decide),
   c2_sign_amended.2.2 (fun b => if b = 0 then 1 else 0)
     (fun b => if b = 0 then 1 else 0) (fun n => n) 1 1 16
     (fun i hi => hi) (fun i _ j _ h => h) (by decide) (by decide)
     (by decide) (by decide)
     (fun p hp1 _ => if_neg (show ¬p = 0 by omega)) (by decide)⟩

/-! ## Claim C3 -/

set_option maxRecDepth 10000 in
/-- C3 counterexample: the RDO sign-bit-hiding pass, run on the concrete
levels `c3Dst` with rate arrays `c3Up`, `c3Down`, `c3Sigd` and
`rdFactor = 1`, bumps block position 27 to magnitude 1 although the
plain-quant ceiling bound there is `ceil(0 / 2^18) = 0`. -/
theorem c3_magnitude_counterexample :
    ((rdoqSBH c3Dst cDct (fun _ => 0) c3Up c3Down c3Sigd 1 scan8 1 3).1 27).natAbs = 1
    ∧ ceilq ((cDct 27).natAbs * cScaling 27) 18 = 0 := by
  decide

/-- C3 (amended): the per-coefficient level search stays within the
ceiling bound `ceil(scaled / 2^qbits)` and only considers zero or the
levels from `max(maxAbsLevel-1, 1)` to `maxAbsLevel`; the finalization
never increases a magnitude; the RDO sign-bit-hiding pass keeps every
magnitude within any componentwise bound on its input *plus one* (it can
exceed the ceiling bound by exactly 1 at its single perturbed position
per group). -/
theorem c3_magnitude_bound :
    (∀ (accept : Nat → Bool) (scaled qbits : Nat), 1 ≤ qbits →
      rdoCodedLevel accept (nquantLevel scaled qbits) ≤ ceilq scaled qbits
      ∧ (rdoCodedLevel accept (nquantLevel scaled qbits) = 0
        ∨ (max (nquantLevel scaled qbits - 1) 1
            ≤ rdoCodedLevel accept (nquantLevel scaled qbits)
          ∧ rdoCodedLevel accept (nquantLevel scaled qbits)
            ≤ nquantLevel scaled qbits)))
    ∧ (∀ (dst resiDct : Nat → Int) (scan : Nat → Nat) (best last N : Nat),
      (∀ i < N, scan i < N) →
      (∀ i < N, ∀ j < N, scan i = scan j → i = j) →
      best ≤ last + 1 → last < N →
      (∀ b < N, 0 ≤ dst b) → (∀ b < N, dst b ≤ 32767) →
      (∀ p, last < p → p < N → dst (scan p) = 0) →
      ∀ b < N, ((rdoqFinalize dst resiDct scan best last).1 b).natAbs
        ≤ (dst b).natAbs)
    ∧ (∀ (dst resiDct dU up down sigd : Nat → Int) (rdFactor : Int)
        (scan : Nat → Nat) (cgLast ns N : Nat),
      16 * (cgLast + 1) ≤ N →
      (∀ i < N, scan i < N) →
      (∀ i < N, ∀ j < N, scan i = scan j → i = j) →
      ns = countNZ dst N →
      RangeOK dst N →
      SignOK resiDct dst N →
      (∀ b < N, resiDct b = 0 → dst b = 0) →
      (∀ b < N, (up b).natAbs ≤ 2 ^ 31) →
      (∀ b < N, (down b).natAbs ≤ 2 ^ 31) →
      (∀ b < N, (sigd b).natAbs ≤ 2 ^ 31) →
      ∀ B : Nat → Nat, (∀ b < N, (dst b).natAbs ≤ B b) →
      ∀ b < N,
        ((rdoqSBH dst resiDct dU up down sigd rdFactor scan cgLast ns).1 b).natAbs
          ≤ B b + 1) := by
  refine ⟨?_, ?_, ?_⟩
  · intro accept scaled qbits hq
    exact ⟨le_trans (rdoCodedLevel_le accept (nquantLevel scaled qbits))
        (nquantLevel_le_ceilq scaled qbits hq),
      rdoCodedLevel_mem accept (nquantLevel scaled qbits)⟩
  · intro dst resiDct scan best last N hlt hinj hbl hlN hnn hub habove
    exact (rdoqFinalize_facts dst resiDct scan best last N
      hlt hinj hbl hlN hnn hub habove).2.2.2
  · intro dst resiDct dU up down sigd rdFactor scan cgLast ns N
      hN hlt hinj hns hrange hsgn hqz hup hdown hsigd B hB b hb
    obtain ⟨_, _, _, _, h5, _, _, h8⟩ := rdoqSBH_spec dst resiDct dU up down sigd
      rdFactor scan cgLast ns N hN hlt hinj hns hrange hsgn hqz hup hdown hsigd
    obtain ⟨p, hpN, rfl⟩ := scan_surj scan N hlt hinj b hb
    by_cases hp : p < 16 * (cgLast + 1)
    · have hperturb := cgPerturbOK_natAbs dst
        (rdoqSBH dst resiDct dU up down sigd rdFactor scan cgLast ns).1 scan
        (p / 16) (h5 (p / 16) (by omega)) (p % 16) (by omega)
      have hpe : p % 16 + p / 16 * 16 = p := by omega
      rw [hpe] at hperturb
      have := hB (scan p) (hlt p hpN)
      omega
    · rw [h8 (scan p) ?_]
      · have := hB (scan p) (hlt p hpN)
        omega
      · intro i hi hc
        have := hinj p hpN i (by omega) hc
        omega

theorem c3_magnitude_bound_witness :
    ((1 : Nat) ≤ 18)
    ∧ (rdoCodedLevel (fun _ => true) (nquantLevel 1048576 18) ≤ ceilq 1048576 18
      ∧ (rdoCodedLevel (fun _ => true) (nquantLevel 1048576 18) = 0
        ∨ (max (nquantLevel 1048576 18 - 1) 1
            ≤ rdoCodedLevel (fun _ => true) (nquantLevel 1048576 18)
          ∧ rdoCodedLevel (fun _ => true) (nquantLevel 1048576 18)
            ≤ nquantLevel 1048576 18)))
    ∧ (∀ b < 16, ((rdoqFinalize (fun b => if b = 0 then 1 else 0)
        (fun b => if b = 0 then 1 else 0) (fun n => n) 1 1).1 b).natAbs
        ≤ ((fun b => if b = 0 then (1 : Int) else 0) b).natAbs)
    ∧ (∀ b < 16, ((rdoqSBH (fun _ => 0) (fun _ => 0) (fun _ => 0) (fun _ => 0)
        (fun _ => 0) (fun _ => 0) 0 (fun n => n) 0 0).1 b).natAbs
        ≤ (fun _ => (0 : Nat)) b + 1) :=
  ⟨by decide,
   c3_magnitude_bound.1 (fun _ => true) 1048576 18 (by decide),
   c3_magnitude_bound.2.1 (fun b => if b = 0 then 1 else 0)
     (fun b => if b = 0 then 1 else 0) (fun n => n) 1 1 16
     (fun i hi => hi) (fun i _ j _ h => h) (by decide) (by decide)
     (by decide) (by decide)
     (fun p hp1 _ => if_neg (show ¬p = 0 by omega)),
   c3_magnitude_bound.2.2 (fun _ => 0) (fun _ => 0) (fun _ => 0) (fun _ => 0)
     (fun _ => 0) (fun _ => 0) 0 (fun n => n) 0 0 16 (by decide)
     (fun i hi => hi) (fun i _ j _ h => h) (by decide) (by decide)
     (by decide) (by decide) (by decide) (by decide) (by decide)
     (fun _ => 0) (by decide)⟩

/-! ## Claim C9 -/

/-- C9: in both sign-bit-hiding passes, whenever the parity-mismatch
adjustment branch is entered the last nonzero position of the group is a
candidate with cost strictly below the `MAX_INT` / `MAX_INT64` sentinel
(its `n == firstNZPosInCG` escape cannot fire because the group spans at
least `SBH_THRESHOLD`), so the search selects some in-group scan position
`m`: `minPos` equals the block position `scan(m + subPos)` and is never
left at `-1`. -/
theorem c9_minPos_valid :
    (∀ (dU coef : Nat → Int) (scan : Nat → Nat) (q : Nat → Int) (lastCG : Bool)
        (s F L : Nat) (signbit : Int),
      L < 16 → L ≠ F → q (scan (L + s * 16)) ≠ 0 →
      ∃ m, m ≤ 15
        ∧ (selGo (hdqMk dU coef scan q lastCG (s * 16) F L signbit) scan (s * 16)
            (if lastCG then L else 15) (initSel MAX_INT)).minPos
          = ((scan (m + s * 16) : Nat) : Int)
        ∧ 0 ≤ (selGo (hdqMk dU coef scan q lastCG (s * 16) F L signbit) scan (s * 16)
            (if lastCG then L else 15) (initSel MAX_INT)).minPos)
    ∧ (∀ (dU up down sigd resiDct : Nat → Int) (rdFactor : Int) (scan : Nat → Nat)
        (q : Nat → Int) (lastCG : Bool) (s F L : Nat) (signbit : Int),
      L < 16 → L ≠ F → q (scan (L + s * 16)) ≠ 0 →
      (up (scan (L + s * 16))).natAbs ≤ 2 ^ 31 →
      (down (scan (L + s * 16))).natAbs ≤ 2 ^ 31 →
      (sigd (scan (L + s * 16))).natAbs ≤ 2 ^ 31 →
      ∃ m, m ≤ 15
        ∧ (selGo (rdoqMk dU up down sigd resiDct rdFactor scan
              q lastCG (s * 16) F L signbit) scan (s * 16)
            (if lastCG then L else 15) (initSel MAX_INT64)).minPos
          = ((scan (m + s * 16) : Nat) : Int)
        ∧ 0 ≤ (selGo (rdoqMk dU up down sigd resiDct rdFactor scan
              q lastCG (s * 16) F L signbit) scan (s * 16)
            (if lastCG then L else 15) (initSel MAX_INT64)).minPos) := by
  constructor
  · intro dU coef scan q lastCG s F L signbit hL16 hLF hq
    have hatL := hdqMk_atL dU coef scan q lastCG (s * 16) F L signbit hq hLF
    have hstart : L ≤ (if lastCG then L else 15) := by split <;> omega
    have hstart15 : (if lastCG then L else 15) ≤ 15 := by split <;> omega
    have hle := selGo_minCost_le_cand
      (hdqMk dU coef scan q lastCG (s * 16) F L signbit) scan (s * 16)
      (if lastCG then L else 15) (initSel MAX_INT) L hstart
    rcases selGo_cases (hdqMk dU coef scan q lastCG (s * 16) F L signbit)
        scan (s * 16) (if lastCG then L else 15) (initSel MAX_INT) with
      ⟨h1, _, _⟩ | ⟨m, hm, _, _, h3, _⟩
    · exfalso
      have hsent : (initSel MAX_INT).minCost = MAX_INT := rfl
      rw [hsent] at h1
      omega
    · exact ⟨m, by omega, h3, by rw [h3]; exact Int.natCast_nonneg _⟩
  · intro dU up down sigd resiDct rdFactor scan q lastCG s F L signbit
      hL16 hLF hq hup hdown hsigd
    have hatL := rdoqMk_atL dU up down sigd resiDct rdFactor scan q lastCG
      (s * 16) F L signbit hq hLF hup hdown hsigd
    have hstart : L ≤ (if lastCG then L else 15) := by split <;> omega
    have hstart15 : (if lastCG then L else 15) ≤ 15 := by split <;> omega
    have hle := selGo_minCost_le_cand
      (rdoqMk dU up down sigd resiDct rdFactor scan q lastCG (s * 16) F L signbit)
      scan (s * 16) (if lastCG then L else 15) (initSel MAX_INT64) L hstart
    rcases selGo_cases
        (rdoqMk dU up down sigd resiDct rdFactor scan q lastCG (s * 16) F L signbit)
        scan (s * 16) (if lastCG then L else 15) (initSel MAX_INT64) with
      ⟨h1, _, _⟩ | ⟨m, hm, _, _, h3, _⟩
    · exfalso
      have hsent : (initSel MAX_INT64).minCost = MAX_INT64 := rfl
      rw [hsent] at h1
      omega
    · exact ⟨m, by omega, h3, by rw [h3]; exact Int.natCast_nonneg _⟩

theorem c9_minPos_valid_witness :
    ((5 : Nat) < 16 ∧ (5 : Nat) ≠ 0
      ∧ (fun b => if b = 5 then (1 : Int) else 0) ((fun n => n) (5 + 0 * 16)) ≠ 0)
    ∧ (∃ m, m ≤ 15
        ∧ (selGo (hdqMk (fun _ => 0) (fun _ => 0) (fun n => n)
              (fun b => if b = 5 then 1 else 0) false (0 * 16) 0 5 0)
            (fun n => n) (0 * 16) (if false then 5 else 15) (initSel MAX_INT)).minPos
          = (((fun n => n) (m + 0 * 16) : Nat) : Int)
        ∧ 0 ≤ (selGo (hdqMk (fun _ => 0) (fun _ => 0) (fun n => n)
              (fun b => if b = 5 then 1 else 0) false (0 * 16) 0 5 0)
            (fun n => n) (0 * 16) (if false then 5 else 15) (initSel MAX_INT)).minPos)
    ∧ (∃ m, m ≤ 15
        ∧ (selGo (rdoqMk (fun _ => 0) (fun _ => 0) (fun _ => 0) (fun _ => 0)
              (fun _ => 0) 1 (fun n => n)
              (fun b => if b = 5 then 1 else 0) false (0 * 16) 0 5 0)
            (fun n => n) (0 * 16) (if false then 5 else 15) (initSel MAX_INT64)).minPos
          = (((fun n => n) (m + 0 * 16) : Nat) : Int)
        ∧ 0 ≤ (selGo (rdoqMk (fun _ => 0) (fun _ => 0) (fun _ => 0) (fun _ => 0)
              (fun _ => 0) 1 (fun n => n)
              (fun b => if b = 5 then 1 else 0) false (0 * 16) 0 5 0)
            (fun n => n) (0 * 16) (if false then 5 else 15) (initSel MAX_INT64)).minPos) :=
  ⟨⟨by decide, by decide, by decide⟩,
   c9_minPos_valid.1 (fun _ => 0) (fun _ => 0) (fun n => n)
     (fun b => if b = 5 then 1 else 0) false 0 0 5 0
     (by decide) (by decide) (by decide),
   c9_minPos_valid.2 (fun _ => 0) (fun _ => 0) (fun _ => 0) (fun _ => 0)
     (fun _ => 0) 1 (fun n => n)
     (fun b => if b = 5 then 1 else 0) false 0 0 5 0
     (by decide) (by decide) (by decide) (by decide) (by decide) (by decide)⟩

end Quant
